import Mathlib

/-!
# Verification of the selective code extractor (`hand_return.py`)

A shallow embedding of the dependency-aware code extractor.  Python source
text is modelled in "line space": a file's content is its list of lines
(`splitlines`), and string joins with `"\n"` / `"\n\n"` become list
concatenations with `""` separator elements.  This is faithful because no
line produced by `splitlines` contains a newline, so joining is injective.

Paths are plain strings joined with `"/"`.  The in-memory project is an
association list from path to parsed file.  Python's insertion-ordered
`dict` is an association list where overwriting a key keeps its position
and inserting a fresh key appends.  A parsed file carries both views the
code takes of its syntax tree: `body`, the top-level statements in source
order (`tree.body`), and `walk`, the full breadth-first `ast.walk`
enumeration (top-level statements first, then statements nested inside
definitions and compound statements).  Fallible operations (the unguarded
`open`, `Path.relative_to`) live in `Except Unit` / `Option`.

Recursions whose depth Python bounds only by the data (the worklist loop,
the nested tree rendering) take an explicit fuel that provably dominates
that depth, so every definition stays executable by kernel reduction.
-/

namespace ExtractCode

/-! ## Association lists with Python `dict` semantics -/

/-- First-match lookup, as in membership tests on a Python `dict`. -/
def lookupA {β : Type} : List (String × β) → String → Option β
  | [], _ => none
  | (k', v) :: rest, k => if k' = k then some v else lookupA rest k

/-- `d[k] = v`: overwrite in place when the key exists (keeping its
position, as an insertion-ordered `dict` does), append otherwise. -/
def setKey {β : Type} : List (String × β) → String → β → List (String × β)
  | [], k, v => [(k, v)]
  | (k', v') :: rest, k, v =>
    if k' = k then (k, v) :: rest else (k', v') :: setKey rest k v

/-- `d.setdefault(k, []).extend(vs)`: extend the existing list in place,
or append a fresh key holding `vs`. -/
def extendKey : List (String × List String) → String → List String →
    List (String × List String)
  | [], k, vs => [(k, vs)]
  | (k', v') :: rest, k, vs =>
    if k' = k then (k', v' ++ vs) :: rest else (k', v') :: extendKey rest k vs

/-- The keys of an association list, in insertion order. -/
def keysList {β : Type} (d : List (String × β)) : List String := d.map Prod.fst

/-! ## Strings and lines -/

/-- `pat in hay` on character lists: contiguous substring test. -/
def isSubOf (pat : List Char) : List Char → Bool
  | [] => pat.isEmpty
  | c :: t => pat.isPrefixOf (c :: t) || isSubOf pat t

/-- Python's `pat in hay` on strings. -/
def strContains (hay pat : String) : Bool := isSubOf pat.data hay.data

/-- Python's slice `lines[a:b]` (for non-negative bounds). -/
def slice (l : List String) (a b : Nat) : List String := (l.drop a).take (b - a)

/-- Whether a list of lines joins (with `"\n"`) to the empty string, i.e.
is falsy as a Python string.  Only `[]` and `[""]` join to `""`. -/
def isEmptyText : List String → Bool
  | [] => true
  | [s] => s == ""
  | _ => false

/-- `"\n\n".join(parts)` in line space: parts separated by one empty line. -/
def joinParts : List (List String) → List String
  | [] => []
  | [p] => p
  | p :: q :: rest => p ++ [""] ++ joinParts (q :: rest)

/-- `len(text.splitlines())` for text given as its joined line list: a
trailing empty line is not counted, and `""` has zero lines. -/
def pyLineCount (l : List String) : Nat :=
  match l.getLast? with
  | none => 0
  | some s => if s = "" then l.length - 1 else l.length

/-- Split a character list at `'/'` separators. -/
def splitSlashAux : List Char → List Char → List String
  | [], acc => [String.mk acc.reverse]
  | c :: rest, acc =>
    if c = '/' then String.mk acc.reverse :: splitSlashAux rest []
    else splitSlashAux rest (c :: acc)

/-- `path.split('/')` / `Path(path).parts` for slash-joined paths. -/
def splitSlash (s : String) : List String := splitSlashAux s.data []

/-- `Path(p).relative_to(root)`: strip the leading `root ++ "/"` component
run, `"."` when the paths coincide, failure otherwise. -/
def relTo (p root : String) : Option String :=
  if p = root then some "."
  else if (root ++ "/").data.isPrefixOf p.data then
    some (String.mk (p.data.drop (root.data.length + 1)))
  else none

/-- `Path(p).parent` for slash-joined path strings. -/
def parentDir (p : String) : String :=
  let parts := splitSlash p
  if parts.length ≤ 1 then "." else String.intercalate "/" parts.dropLast

/-- The directory label printed for a section: `"(root)"` for files directly
under the project root, otherwise the parent's project-relative path. -/
def dirLabelOf (p project : String) : Option String :=
  if parentDir p = project then some "(root)" else relTo (parentDir p) project

/-! ## Files and projects

Only the statement shapes the extractor inspects are distinguished; every
other statement is `other`. -/

/-- A statement as the extractor sees it: kind and 1-based source span. -/
inductive Stmt where
  /-- `import a, b` — one alias name per imported module. -/
  | imp (names : List String) (lineno : Nat) (endLineno : Option Nat)
  /-- `from m import a, b`; `module` is `none` for relative imports. -/
  | fromImp (module : Option String) (names : List String)
      (lineno : Nat) (endLineno : Option Nat)
  /-- `def name(...)` or `class name(...)`. -/
  | defStmt (name : String) (lineno : Nat) (endLineno : Option Nat)
  /-- A top-level assignment. -/
  | assign (lineno : Nat) (endLineno : Option Nat)
  /-- Any other statement. -/
  | other
deriving DecidableEq

/-- A successfully parsed syntax tree, through the two views the code
takes of it: `body` is `tree.body` (top-level statements, source order),
`walk` is the breadth-first `ast.walk(tree)` enumeration — the top-level
statements first, followed by the statements nested inside them, level by
level. -/
structure PyTree where
  body : List Stmt
  walk : List Stmt
deriving DecidableEq

/-- One source file: its raw lines and its syntax tree (`none` when
`ast.parse` raises). -/
structure PyFile where
  lines : List String
  tree : Option PyTree
deriving DecidableEq

/-- The project: association list from path string to file. -/
abbrev FS := List (String × PyFile)

/-! ## `parse_imports_with_names` -/

/-- One `ast.walk` node's effect on the `imports` dict: an `ImportFrom`
with a module extends that module's name list (creating it if absent), an
`Import` overwrites each alias with the whole-module marker `["*"]`. -/
def parseStep (d : List (String × List String)) : Stmt →
    List (String × List String)
  | .fromImp (some m) names _ _ => extendKey d m names
  | .imp names _ _ => names.foldl (fun d a => setKey d a ["*"]) d
  | _ => d

/-- `parse_imports_with_names(file_path)`: mapping module → requested
names; empty when the file is missing or unparseable (the `except` path
prints a diagnostic and returns the empty dict). -/
def parse_imports_with_names (fs : FS) (file_path : String) :
    List (String × List String) :=
  match lookupA fs file_path with
  | none => []
  | some f =>
    match f.tree with
    | none => []
    | some t => t.walk.foldl parseStep []

/-! ## `extract_function_or_class` and `get_global_variables` -/

/-- `end_line = node.end_lineno if node.end_lineno else start_line + 1`:
a missing (or falsy `0`) end line yields one single line. -/
def endLineOf (lineno : Nat) : Option Nat → Nat
  | some e => if e = 0 then lineno else e
  | none => lineno

/-- Scan the walk order for the first definition with the exact name and
return its verbatim line span. -/
def findDef (walkList : List Stmt) (name : String) (lines : List String) :
    Option (List String) :=
  match walkList with
  | [] => none
  | s :: rest =>
    match s with
    | .defStmt n ln el =>
      if n = name then some (slice lines (ln - 1) (endLineOf ln el))
      else findDef rest name lines
    | _ => findDef rest name lines

/-- `extract_function_or_class(file_path, name)`: `none` when the file is
missing/unparseable or no definition matches. -/
def extract_function_or_class (fs : FS) (file_path name : String) :
    Option (List String) :=
  match lookupA fs file_path with
  | none => none
  | some f =>
    match f.tree with
    | none => none
    | some t => findDef t.walk name f.lines

/-- One top-level statement's contribution to the global-scope prologue:
module loads and assignments contribute their line span. -/
def globStep (lines : List String) (acc : List String) : Stmt → List String
  | .imp _ ln el => acc ++ slice lines (ln - 1) (endLineOf ln el)
  | .fromImp _ _ ln el => acc ++ slice lines (ln - 1) (endLineOf ln el)
  | .assign ln el => acc ++ slice lines (ln - 1) (endLineOf ln el)
  | _ => acc

/-- `get_global_variables(file_path)`: top-level imports and assignments,
in source order; empty on any failure. -/
def get_global_variables (fs : FS) (file_path : String) : List String :=
  match lookupA fs file_path with
  | none => []
  | some f =>
    match f.tree with
    | none => []
    | some t => t.body.foldl (globStep f.lines) []

/-! ## `resolve_import_to_file` and the skip list -/

/-- `import_name.replace('.', '/')`. -/
def dotToSlash (s : String) : String :=
  String.mk (s.data.map (fun c => if c = '.' then '/' else c))

/-- `resolve_import_to_file(import_name, project_dir)`: try
`<path>.py`, then `<path>/__init__.py`. -/
def resolve_import_to_file (fs : FS) (import_name project_dir : String) :
    Option String :=
  let path := dotToSlash import_name
  let py_file := project_dir ++ "/" ++ path ++ ".py"
  if (lookupA fs py_file).isSome then some py_file
  else
    let init_file := project_dir ++ "/" ++ path ++ "/__init__.py"
    if (lookupA fs init_file).isSome then some init_file else none

/-- The hardcoded external-module skip list (identical in
`discover_files` and `extract_used_code`). -/
def skipList : List String :=
  ["os", "sys", "re", "cv2", "uuid", "numpy", "tensorflow",
   "PIL", "flask", "urllib", "json", "time", "gc", "io",
   "paddleocr", "ultralytics", "torch", "requests", "certifi", "urllib3"]

/-- `any(pattern in str(current_file) for pattern in exclude_patterns)`. -/
def isExcluded (excl : List String) (path : String) : Bool :=
  excl.any (fun pat => strContains path pat)

/-- The shared enqueue block of both worklist loops: for each parsed
module, skip external modules, resolve, and append `(resolved, names)` to
the queue unless the resolved file is already processed.  No merging with
entries already queued takes place. -/
def enqueueImports (fs : FS) (project : String) (processed : List String) :
    List (String × List String) → List (String × List String) →
    List (String × List String)
  | queue, [] => queue
  | queue, mn :: rest =>
    enqueueImports fs project processed
      (if skipList.contains mn.1 then queue
       else
        match resolve_import_to_file fs mn.1 project with
        | some fp => if processed.contains fp then queue else queue ++ [(fp, mn.2)]
        | none => queue)
      rest

/-! ## Worklist fuel

Each loop iteration pops one queue entry; entries are appended only while
processing a file that was never processed before, at most one per
parsed module of that file.  Hence the number of iterations is bounded by the
initial queue length plus the total import count over all files that could
still be processed (the entry plus every project file).  The loops below
take this bound as fuel; with it they behave exactly like the unbounded
Python `while` loops. -/

/-- Every path a queue entry can ever hold: the entry file and the
project's files (resolution only ever returns existing project paths). -/
def univList (fs : FS) (entry : String) : List String := entry :: keysList fs

/-- Import count of one file, as parsed. -/
def impLen (fs : FS) (p : String) : Nat := (parse_imports_with_names fs p).length

/-- Total import count over the not-yet-processed candidate files. -/
def impMeasure (fs : FS) (entry : String) (processed : List String) : Nat :=
  (((univList fs entry).filter (fun p => !processed.contains p)).map
    (impLen fs)).sum

/-- Sufficient fuel for a full run from the initial one-element queue. -/
def topFuel (fs : FS) (entry : String) : Nat := impMeasure fs entry [] + 1

/-! ## `discover_files` (phase 1) -/

/-- The `while files_to_process:` loop of `discover_files`: FIFO pop,
discard already-processed files, mark processed, skip excluded files,
record the file, then enqueue its resolved imports. -/
def discoverLoop (fs : FS) (project : String) (excl : List String) :
    Nat → List (String × List String) → List String → List String →
    List String
  | 0, _, _, acc => acc
  | _ + 1, [], _, acc => acc
  | fuel + 1, (cur, _) :: rest, processed, acc =>
    if processed.contains cur then discoverLoop fs project excl fuel rest processed acc
    else
      let processed' := processed ++ [cur]
      if isExcluded excl cur then
        discoverLoop fs project excl fuel rest processed' acc
      else
        let imports := parse_imports_with_names fs cur
        discoverLoop fs project excl fuel
          (enqueueImports fs project processed' rest imports) processed'
          (acc ++ [cur])

/-- `discover_files(project_dir, entry_file, exclude_patterns)`. -/
def discover_files (fs : FS) (project entry : String) (excl : List String) :
    List String :=
  discoverLoop fs project excl (topFuel fs entry) [(entry, ["*"])] [] []

/-! ## The extraction phase of `extract_used_code` -/

/-- Mutable state of the phase-2 worklist loop.  `order` records each file
at the moment it is first dequeued and marked processed (ghost data used to
state the traversal-order properties; the Python loop has it implicitly as
the order of `processed.add` calls). -/
structure EState where
  queue : List (String × List String)
  processed : List String
  extracted : List (String × List String)
  order : List String
deriving DecidableEq

/-- Lines 299–326 of `extract_used_code`: the non-wildcard assembly for
one dequeued file.  The global-scope prologue (if non-empty as a string)
is followed by each found, non-empty requested definition, joined by
`"\n\n"` with each definition prefixed by `"\n"`; requests named `'*'`
and names without a found definition are skipped. -/
def assembleParts (fs : FS) (cur : String) (names : List String) :
    List String :=
  let gl := get_global_variables fs cur
  let base := if isEmptyText gl then [] else [gl]
  let parts := base ++ names.filterMap (fun n =>
    if n = "*" then none
    else
      match extract_function_or_class fs cur n with
      | some c => if isEmptyText c then none else some ("" :: c)
      | none => none)
  joinParts parts

/-- The extraction performed for one processed, non-excluded file: a
wildcard request re-reads the whole file (the one `open` outside any
`try`, which raises when the file is missing); otherwise the parts
assembly above. -/
def processFile (fs : FS) (cur : String) (names : List String) :
    Except Unit (List String) :=
  if names.contains "*" then
    match lookupA fs cur with
    | none => .error ()
    | some f => .ok f.lines
  else .ok (assembleParts fs cur names)

/-- The `while files_to_process:` loop of the extraction phase.  The
`[SKIP]`/`[PROCESS]` console lines interpolate
`current_file.relative_to(project_dir)`, which raises for a file outside
the project root; that is the only failure besides the wildcard `open`. -/
def extractLoop (fs : FS) (project : String) (excl : List String) :
    Nat → EState → Except Unit EState
  | 0, st => .ok st
  | fuel + 1, st =>
    match st.queue with
    | [] => .ok st
    | (cur, names) :: rest =>
      if st.processed.contains cur then
        extractLoop fs project excl fuel { st with queue := rest }
      else
        let processed' := st.processed ++ [cur]
        let order' := st.order ++ [cur]
        if isExcluded excl cur then
          match relTo cur project with
          | none => .error ()
          | some _ =>
            extractLoop fs project excl fuel
              { queue := rest, processed := processed',
                extracted := st.extracted, order := order' }
        else
          match relTo cur project with
          | none => .error ()
          | some _ =>
            let imports := parse_imports_with_names fs cur
            match processFile fs cur names with
            | .error e => .error e
            | .ok code =>
              extractLoop fs project excl fuel
                { queue := enqueueImports fs project processed' rest imports,
                  processed := processed',
                  extracted := setKey st.extracted cur code,
                  order := order' }

/-- The extraction phase, from the seeded queue `[(entry_file, ['*'])]`. -/
def extractPhase (fs : FS) (project entry : String) (excl : List String) :
    Except Unit EState :=
  extractLoop fs project excl (topFuel fs entry)
    ⟨[(entry, ["*"])], [], [], []⟩

/-! ## `build_tree_structure`, `print_tree` and `write_tree` -/

/-- The nested `name -> {'_is_file': ..., '_children': ...}` dict built by
`build_tree_structure`, as an insertion-ordered entry list. -/
inductive PTree where
  | mk (entries : List (String × Bool × PTree))

/-- The entry list of a tree node. -/
def PTree.entries : PTree → List (String × Bool × PTree)
  | .mk es => es

/-- One rendered tree entry: display name, `_is_file` flag, children. -/
abbrev TEntry := String × Bool × PTree

/-- Insert one relative path, component by component: a missing component
is appended with `_is_file` true exactly when it is the last part; an
existing component keeps its flag, and insertion descends into its
children. -/
def PTree.insertPath : PTree → List String → PTree
  | t, [] => t
  | .mk entries, part :: restParts =>
    match lookupA entries part with
    | some (isFile, child) =>
      .mk (setKey entries part (isFile, child.insertPath restParts))
    | none =>
      .mk (entries ++ [(part, restParts.isEmpty,
        (PTree.mk []).insertPath restParts)])

/-- `build_tree_structure(files, project_dir)`: fails (Python
`ValueError`) when some file is not under the project root. -/
def buildTree (files : List String) (project : String) : Option PTree :=
  files.foldlM (fun t f =>
    match relTo f project with
    | none => none
    | some rel => some (t.insertPath (splitSlash rel))) (PTree.mk [])

/-- Lexicographic code-point comparison of character lists, as Python
compares strings. -/
def strLtB : List Char → List Char → Bool
  | [], [] => false
  | [], _ :: _ => true
  | _ :: _, [] => false
  | a :: as, b :: bs =>
    if a.toNat < b.toNat then true
    else if b.toNat < a.toNat then false
    else strLtB as bs

/-- The sort key `(not x[1]['_is_file'], x[0])` with `False < True`
encoded as `0 < 1`: files get key 0, directories key 1. -/
def keyNat (e : TEntry) : Nat := if e.2.1 then 0 else 1

/-- The tuple ordering `sorted` uses on `(not _is_file, name)` keys (`≤`
as the negation of the reversed strict comparison). -/
def itemLeB (a b : TEntry) : Bool :=
  if keyNat a < keyNat b then true
  else if keyNat b < keyNat a then false
  else !(strLtB b.1.data a.1.data)

/-- Insert before the first element that is `≥` (stable insertion,
matching Python's stable `sorted`). -/
def insertLe (a : TEntry) : List TEntry → List TEntry
  | [] => [a]
  | b :: rest => if itemLeB a b then a :: b :: rest else b :: insertLe a rest

/-- `sorted(tree.items(), key=lambda x: (not x[1]['_is_file'], x[0]))`. -/
def sortItems : List TEntry → List TEntry
  | [] => []
  | a :: rest => insertLe a (sortItems rest)

/-- Node count of an entry list, children included (one `write_tree` line
per node). -/
def countE : List TEntry → Nat
  | [] => 0
  | (_, _, child) :: rest => 1 + countE child.entries + countE rest
termination_by l => sizeOf l
decreasing_by
  · rcases child with ⟨es⟩
    simp [PTree.entries]
    try omega
  · simp
    try omega

/-- The recursive body of `write_tree` on one sorted entry list: one line
per entry, directories followed by their recursively rendered (and
sorted) children.  No truncation of any kind; the fuel only bounds the
nesting depth and is always supplied large enough (≥ the node count). -/
def writeItemsF : Nat → String → List TEntry → List String
  | 0, _, _ => []
  | fuel + 1, pre, l =>
    match l with
    | [] => []
    | (n, isF, child) :: rest =>
      let isLastItem := rest.isEmpty
      let connector := if isLastItem then "└── " else "├── "
      let extension := if isLastItem then "    " else "│   "
      (if isF then [pre ++ connector ++ "📄 " ++ n]
       else (pre ++ connector ++ "📁 " ++ n ++ "/") ::
         writeItemsF fuel (pre ++ extension) (sortItems child.entries)) ++
      writeItemsF fuel pre rest

/-- `write_tree(tree_dict, prefix, is_last)`: the lines written into the
output artifact for one tree node. -/
def writeTree (fuel : Nat) (pre : String) (t : PTree) : List String :=
  writeItemsF fuel pre (sortItems t.entries)

/-- The child lines printed by the truncation branch of `print_tree`: the
shown children all get the `├── ` connector and are never recursed into. -/
def printShown (childPre : String) : List TEntry → List String
  | [] => []
  | c :: rest =>
    (if c.2.1 then childPre ++ "├── 📄 " ++ c.1
     else childPre ++ "├── 📁 " ++ c.1 ++ "/") ::
    printShown childPre rest

/-- The recursive body of `print_tree` on one sorted entry list.  In a
directory holding more than `maxFiles` children, only the first
`maxFiles` children *in dict insertion order* are shown, followed by an
ellipsis line and a count line; otherwise the children are rendered
recursively in sorted order. -/
def printItemsF : Nat → String → Nat → List TEntry → List String
  | 0, _, _, _ => []
  | fuel + 1, pre, maxFiles, l =>
    match l with
    | [] => []
    | (n, isF, child) :: rest =>
      let isLastItem := rest.isEmpty
      let connector := if isLastItem then "└── " else "├── "
      let extension := if isLastItem then "    " else "│   "
      (if isF then [pre ++ connector ++ "📄 " ++ n]
       else
        let childCount := child.entries.length
        (pre ++ connector ++ "📁 " ++ n ++ "/") ::
        (if childCount > maxFiles then
          printShown (pre ++ extension) (child.entries.take maxFiles) ++
          [pre ++ extension ++ "├── ...",
           pre ++ extension ++ "└── (up to " ++ toString childCount ++
             " files in this directory)"]
        else printItemsF fuel (pre ++ extension) maxFiles
          (sortItems child.entries))) ++
      printItemsF fuel pre maxFiles rest

/-- The lines `print_tree(tree, prefix, is_last, max_files_per_dir)` sends
to the console (the `is_last` argument does not influence the output). -/
def printTreeLines (fuel : Nat) (pre : String) (maxFiles : Nat) (t : PTree) :
    List String :=
  printItemsF fuel pre maxFiles (sortItems t.entries)

/-- Rendering fuel sufficient for the tree built from the given files:
one unit per path component, plus one. -/
def treeFuel (files : List String) (project : String) : Nat :=
  (files.map (fun f =>
    match relTo f project with
    | some rel => (splitSlash rel).length
    | none => 0)).sum + 1

/-! ## Output assembly -/

/-- One `FILE:` section of the output artifact. -/
structure Section where
  path : String
  relPath : String
  dirLabel : String
  extractedLines : Nat
  code : List String
deriving DecidableEq

/-- The written output artifact: summary header, tree manifest, and one
code section per extracted file, in mapping order. -/
structure Artifact where
  totalFiles : Nat
  projectRoot : String
  treeLines : List String
  sections : List Section
deriving DecidableEq

/-- Lines 382–389: header and body of one section; fails when the file's
`relative_to`/parent computations raise. -/
def buildSection (project : String) (pc : String × List String) :
    Option Section :=
  match relTo pc.1 project, dirLabelOf pc.1 project with
  | some rp, some dl =>
    some ⟨pc.1, rp, dl, pyLineCount pc.2, pc.2⟩
  | _, _ => none

/-- The section list written for the extracted mapping, in mapping
order; fails at the first file whose `relative_to`/parent computation
raises (as the sequential Python write loop would). -/
def buildSections (project : String) :
    List (String × List String) → Option (List Section)
  | [] => some []
  | pc :: rest =>
    match buildSection project pc, buildSections project rest with
    | some sec, some secs => some (sec :: secs)
    | _, _ => none

/-- `extract_used_code(project_dir, entry_file, output_file,
exclude_patterns)`: phase 1 (discovery plus console reports, whose
`relative_to` calls can raise), phase 2 (the extraction worklist), then
the output artifact (tree rebuilt from the mapping keys, then one section
per entry).  An exception anywhere aborts with no artifact. -/
def extract_used_code (fs : FS) (project entry output_file : String)
    (excl : List String) : Except Unit Artifact :=
  let _ := output_file
  let discovered := discover_files fs project entry excl
  match buildTree discovered project with
  | none => .error ()
  | some _ =>
    if discovered.all (fun f => (dirLabelOf f project).isSome) then
      match extractPhase fs project entry excl with
      | .error e => .error e
      | .ok st =>
        match buildTree (keysList st.extracted) project with
        | none => .error ()
        | some tree =>
          match buildSections project st.extracted with
          | none => .error ()
          | some sections =>
            .ok { totalFiles := st.extracted.length, projectRoot := project,
                  treeLines :=
                    writeTree (treeFuel (keysList st.extracted) project) "" tree,
                  sections := sections }
    else .error ()

/-! ## Association-list lemmas -/

theorem lookupA_eq_none_iff {β : Type} (d : List (String × β)) (k : String) :
    lookupA d k = none ↔ k ∉ keysList d := by
  induction d with
  | nil => simp [lookupA, keysList]
  | cons e rest ih =>
    rcases e with ⟨k', v⟩
    by_cases h : k' = k
    · subst h
      simp [lookupA, keysList]
    · have h2 : k ≠ k' := fun he => h he.symm
      simp only [lookupA, if_neg h, keysList, List.map_cons, List.mem_cons]
      rw [ih]
      unfold keysList
      tauto

theorem lookupA_setKey_self {β : Type} (d : List (String × β)) (k : String)
    (v : β) : lookupA (setKey d k v) k = some v := by
  induction d with
  | nil => simp [setKey, lookupA]
  | cons e rest ih =>
    rcases e with ⟨k', v'⟩
    by_cases h : k' = k <;> simp [setKey, lookupA, h, ih]

theorem lookupA_setKey_ne {β : Type} (d : List (String × β)) (k k' : String)
    (v : β) (h : k' ≠ k) : lookupA (setKey d k v) k' = lookupA d k' := by
  have h2 : k ≠ k' := fun he => h he.symm
  induction d with
  | nil => simp [setKey, lookupA, h2]
  | cons e rest ih =>
    rcases e with ⟨k'', v''⟩
    by_cases h3 : k'' = k
    · subst h3
      simp [setKey, lookupA, h2]
    · by_cases h4 : k'' = k' <;> simp [setKey, lookupA, h3, h4, h, ih]

theorem keysList_setKey_mem {β : Type} (d : List (String × β)) (k : String)
    (v : β) (h : k ∈ keysList d) : keysList (setKey d k v) = keysList d := by
  induction d with
  | nil => simp [keysList] at h
  | cons e rest ih =>
    rcases e with ⟨k', v'⟩
    by_cases h2 : k' = k
    · simp [setKey, keysList, h2]
    · have h3 : k ∈ keysList rest := by
        simp only [keysList, List.map_cons, List.mem_cons] at h
        rcases h with h4 | h4
        · exact absurd h4.symm h2
        · exact h4
      have h5 := ih h3
      simp only [keysList, List.map_cons] at h5 ⊢
      simp [setKey, h2, h5]

theorem keysList_setKey_fresh {β : Type} (d : List (String × β)) (k : String)
    (v : β) (h : k ∉ keysList d) : keysList (setKey d k v) = keysList d ++ [k] := by
  induction d with
  | nil => simp [setKey, keysList]
  | cons e rest ih =>
    rcases e with ⟨k', v'⟩
    simp only [keysList, List.map_cons, List.mem_cons] at h
    push_neg at h
    have h1 : k' ≠ k := fun he => h.1 he.symm
    have h2 : k ∉ keysList rest := h.2
    simp [setKey, keysList, h1]
    have := ih h2
    simpa [keysList] using this

theorem lookupA_extendKey_self (d : List (String × List String)) (k : String)
    (vs : List String) :
    lookupA (extendKey d k vs) k =
      some ((match lookupA d k with | some v => v | none => []) ++ vs) := by
  induction d with
  | nil => simp [extendKey, lookupA]
  | cons e rest ih =>
    rcases e with ⟨k', v'⟩
    by_cases h : k' = k <;> simp [extendKey, lookupA, h, ih]

theorem lookupA_extendKey_ne (d : List (String × List String)) (k k' : String)
    (vs : List String) (h : k' ≠ k) :
    lookupA (extendKey d k vs) k' = lookupA d k' := by
  have h2 : k ≠ k' := fun he => h he.symm
  induction d with
  | nil => simp [extendKey, lookupA, h2]
  | cons e rest ih =>
    rcases e with ⟨k'', v''⟩
    by_cases h3 : k'' = k
    · subst h3
      simp [extendKey, lookupA, h2]
    · by_cases h4 : k'' = k' <;> simp [extendKey, lookupA, h3, h4, h, ih]

/-! ## C8: wildcard dominance inside the import parser -/

/-- Whether a walk node is a plain `import` statement naming module `x`. -/
def isImportOf (x : String) : Stmt → Bool
  | .imp names _ _ => names.contains x
  | _ => false

/-- The module `x` is mapped to a name list containing the wildcard. -/
def hasStar (d : List (String × List String)) (x : String) : Prop :=
  ∃ l, lookupA d x = some l ∧ "*" ∈ l

theorem hasStar_setKeyStarFold (names : List String)
    (d : List (String × List String)) (x : String)
    (h : hasStar d x ∨ x ∈ names) :
    hasStar (names.foldl (fun d a => setKey d a ["*"]) d) x := by
  induction names generalizing d with
  | nil =>
    rcases h with h | h
    · exact h
    · simp at h
  | cons a rest ih =>
    simp only [List.foldl_cons]
    by_cases hax : a = x
    · subst hax
      refine ih _ (Or.inl ?_)
      exact ⟨["*"], lookupA_setKey_self d a ["*"], by simp⟩
    · rcases h with h | h
      · refine ih _ (Or.inl ?_)
        rcases h with ⟨l, hl, hmem⟩
        refine ⟨l, ?_, hmem⟩
        rw [lookupA_setKey_ne d a x ["*"] (fun he => hax he.symm)]
        exact hl
      · rcases List.mem_cons.mp h with h | h
        · exact absurd h.symm hax
        · exact ih _ (Or.inr h)

theorem hasStar_parseStep (d : List (String × List String)) (x : String)
    (s : Stmt) (h : hasStar d x) : hasStar (parseStep d s) x := by
  cases s with
  | imp names ln el => exact hasStar_setKeyStarFold names d x (Or.inl h)
  | fromImp m names ln el =>
    cases m with
    | none => exact h
    | some mo =>
      rcases h with ⟨l, hl, hmem⟩
      by_cases hmx : x = mo
      · subst hmx
        refine ⟨l ++ names, ?_, by simp [hmem]⟩
        simp only [parseStep]
        rw [lookupA_extendKey_self, hl]
      · refine ⟨l, ?_, hmem⟩
        simp only [parseStep]
        rw [lookupA_extendKey_ne d mo x names hmx]
        exact hl
  | defStmt n ln el => exact h
  | assign ln el => exact h
  | other => exact h

theorem hasStar_parseStep_imp (d : List (String × List String)) (x : String)
    (s : Stmt) (h : isImportOf x s = true) : hasStar (parseStep d s) x := by
  cases s with
  | imp names ln el =>
    simp [isImportOf] at h
    exact hasStar_setKeyStarFold names d x (Or.inr h)
  | fromImp m names ln el => simp [isImportOf] at h
  | defStmt n ln el => simp [isImportOf] at h
  | assign ln el => simp [isImportOf] at h
  | other => simp [isImportOf] at h

theorem hasStar_foldl (l : List Stmt) (d : List (String × List String))
    (x : String)
    (h : hasStar d x ∨ ∃ s ∈ l, isImportOf x s = true) :
    hasStar (l.foldl parseStep d) x := by
  induction l generalizing d with
  | nil =>
    rcases h with h | h
    · exact h
    · simp at h
  | cons s rest ih =>
    simp only [List.foldl_cons]
    rcases h with h | h
    · exact ih _ (Or.inl (hasStar_parseStep d x s h))
    · rcases h with ⟨s', hs', himp⟩
      rcases List.mem_cons.mp hs' with rfl | hmem
      · exact ih _ (Or.inl (hasStar_parseStep_imp d x s' himp))
      · exact ih _ (Or.inr ⟨s', hmem, himp⟩)

/-- C8: for every parseable file, a plain `import x` statement anywhere in
the `ast.walk` enumeration (top-level or nested) forces the parser's
mapping for `x` to contain the wildcard marker `'*'`, regardless of where
`from x import ...` statements occur relative to it. -/
theorem parser_wildcard_dominance (fs : FS) (path x : String) (f : PyFile)
    (t : PyTree) (hf : lookupA fs path = some f) (ht : f.tree = some t)
    (hs : ∃ s ∈ t.walk, isImportOf x s = true) :
    ∃ l, lookupA (parse_imports_with_names fs path) x = some l ∧ "*" ∈ l := by
  have he : parse_imports_with_names fs path = t.walk.foldl parseStep [] := by
    simp only [parse_imports_with_names, hf, ht]
  rw [he]
  exact hasStar_foldl t.walk [] x (Or.inr hs)

/-- A file with `from m import foo` at the top level followed by an
`import m` nested inside an `if` statement. -/
def fileC8 : PyFile :=
  { lines := ["from m import foo", "if True:", "    import m"],
    tree := some { body := [.fromImp (some "m") ["foo"] 1 (some 1), .other],
                   walk := [.fromImp (some "m") ["foo"] 1 (some 1), .other,
                            .imp ["m"] 3 (some 3)] } }

/-- The one-file project used to witness C8. -/
def fsC8 : FS := [("p/w.py", fileC8)]

/-- Witness for C8 at a concrete file where the narrower `from m import`
request comes first and the plain `import m` is nested. -/
theorem parser_wildcard_dominance_witness :
    ∃ l, lookupA (parse_imports_with_names fsC8 "p/w.py") "m" = some l ∧
      "*" ∈ l :=
  parser_wildcard_dominance fsC8 "p/w.py" "m" fileC8
    { body := [.fromImp (some "m") ["foo"] 1 (some 1), .other],
      walk := [.fromImp (some "m") ["foo"] 1 (some 1), .other,
               .imp ["m"] 3 (some 3)] }
    rfl rfl (by decide)

/-! ## C5: partial extraction -/

theorem mem_joinParts {l : String} {parts : List (List String)}
    (h : l ∈ joinParts parts) : l = "" ∨ ∃ p ∈ parts, l ∈ p := by
  induction parts with
  | nil => simp [joinParts] at h
  | cons p rest ih =>
    cases rest with
    | nil => exact Or.inr ⟨p, by simp, by simpa [joinParts] using h⟩
    | cons q rest2 =>
      simp only [joinParts, List.append_assoc, List.mem_append,
        List.mem_singleton] at h
      rcases h with h | h | h
      · exact Or.inr ⟨p, by simp, h⟩
      · exact Or.inl h
      · rcases ih h with h2 | ⟨p', hp', hl⟩
        · exact Or.inl h2
        · exact Or.inr ⟨p', List.mem_cons_of_mem p hp', hl⟩

theorem infix_joinParts {p : List String} {parts : List (List String)}
    (h : p ∈ parts) : p <:+: joinParts parts := by
  induction parts with
  | nil => simp at h
  | cons a rest ih =>
    rcases List.mem_cons.mp h with rfl | h
    · cases rest with
      | nil => exact List.infix_rfl
      | cons q r2 =>
        exact ⟨[], [""] ++ joinParts (q :: r2), by simp [joinParts]⟩
    · cases rest with
      | nil => simp at h
      | cons q r2 =>
        rcases ih h with ⟨s, t, hst⟩
        exact ⟨(a ++ [""]) ++ s, t, by
          simp only [joinParts, List.append_assoc] at hst ⊢
          rw [hst]⟩

/-- C5: when a file is requested with a finite name set (no wildcard),
its recorded extraction is the parts assembly: the global-scope prologue
followed by each found, non-empty requested definition, in request order,
with missing names skipped.  Every non-blank line of the result comes from
the prologue or from the span of a requested definition — so the body of
a definition that is neither requested nor overlapping those spans (such
as an unrequested `bar`) never appears — and every found, non-empty
requested definition occurs contiguously in the result. -/
theorem partial_extraction_correctness (fs : FS) (x : String)
    (ns : List String) (hstar : "*" ∉ ns) :
    processFile fs x ns = .ok (assembleParts fs x ns) ∧
    (∀ l ∈ assembleParts fs x ns,
      l = "" ∨ l ∈ get_global_variables fs x ∨
      ∃ n ∈ ns, ∃ c, extract_function_or_class fs x n = some c ∧ l ∈ c) ∧
    (∀ n ∈ ns, ∀ c, extract_function_or_class fs x n = some c →
      isEmptyText c = false → ("" :: c) <:+: assembleParts fs x ns) := by
  refine ⟨by simp [processFile, hstar], ?_, ?_⟩
  · intro l hl
    unfold assembleParts at hl
    rcases mem_joinParts hl with h | ⟨p, hp, hlp⟩
    · exact Or.inl h
    · rcases List.mem_append.mp hp with hp | hp
      · by_cases hgl : isEmptyText (get_global_variables fs x) = true
        · simp [hgl] at hp
        · simp [eq_false_of_ne_true hgl] at hp
          subst hp
          exact Or.inr (Or.inl hlp)
      · rcases List.mem_filterMap.mp hp with ⟨n, hn, hfn⟩
        by_cases hn8 : n = "*"
        · simp [hn8] at hfn
        · simp only [if_neg hn8] at hfn
          rcases hcase : extract_function_or_class fs x n with _ | c
          · rw [hcase] at hfn
            simp at hfn
          · rw [hcase] at hfn
            by_cases hec : isEmptyText c = true
            · simp [hec] at hfn
            · simp [eq_false_of_ne_true hec] at hfn
              subst hfn
              rcases List.mem_cons.mp hlp with rfl | hlc
              · exact Or.inl rfl
              · exact Or.inr (Or.inr ⟨n, hn, c, hcase, hlc⟩)
  · intro n hn c hc2 hce
    have hn8 : n ≠ "*" := fun he => hstar (he ▸ hn)
    refine infix_joinParts (List.mem_append.mpr (Or.inr ?_))
    refine List.mem_filterMap.mpr ⟨n, hn, ?_⟩
    simp [hn8, hc2, hce]

/-- A file defining `foo` (lines 2–3) and `bar` (lines 4–5) after a
global assignment. -/
def fileC5 : PyFile :=
  { lines := ["IMPORTANT = 1", "def foo():", "    return 1",
              "def bar():", "    return 2"],
    tree := some { body := [.assign 1 (some 1),
                            .defStmt "foo" 2 (some 3),
                            .defStmt "bar" 4 (some 5)],
                   walk := [.assign 1 (some 1),
                            .defStmt "foo" 2 (some 3),
                            .defStmt "bar" 4 (some 5)] } }

/-- One-file project used to witness C5. -/
def fsC5 : FS := [("p/y.py", fileC5)]

/-- Witness for C5 at a request for `foo` only, against a file that also
defines `bar`. -/
theorem partial_extraction_correctness_witness :
    processFile fsC5 "p/y.py" ["foo"] = .ok (assembleParts fsC5 "p/y.py" ["foo"]) ∧
    (∀ l ∈ assembleParts fsC5 "p/y.py" ["foo"],
      l = "" ∨ l ∈ get_global_variables fsC5 "p/y.py" ∨
      ∃ n ∈ ["foo"], ∃ c, extract_function_or_class fsC5 "p/y.py" n = some c ∧ l ∈ c) ∧
    (∀ n ∈ ["foo"], ∀ c, extract_function_or_class fsC5 "p/y.py" n = some c →
      isEmptyText c = false → ("" :: c) <:+: assembleParts fsC5 "p/y.py" ["foo"]) :=
  partial_extraction_correctness fsC5 "p/y.py" ["foo"] (by decide)

/-! ## Single-step unfolding of the worklist loops -/

theorem discoverLoop_nil (fs : FS) (project : String) (excl : List String)
    (fuel : Nat) (processed acc : List String) :
    discoverLoop fs project excl fuel [] processed acc = acc := by
  cases fuel <;> rfl

theorem discoverLoop_skip (fs : FS) (project : String) (excl : List String)
    (fuel : Nat) (cur : String) (names : List String)
    (rest : List (String × List String)) (processed acc : List String)
    (h1 : cur ∈ processed) :
    discoverLoop fs project excl (fuel + 1) ((cur, names) :: rest) processed acc =
      discoverLoop fs project excl fuel rest processed acc := by
  simp [discoverLoop, h1]

theorem discoverLoop_excl (fs : FS) (project : String) (excl : List String)
    (fuel : Nat) (cur : String) (names : List String)
    (rest : List (String × List String)) (processed acc : List String)
    (h1 : cur ∉ processed) (h2 : isExcluded excl cur = true) :
    discoverLoop fs project excl (fuel + 1) ((cur, names) :: rest) processed acc =
      discoverLoop fs project excl fuel rest (processed ++ [cur]) acc := by
  simp [discoverLoop, h1, h2]

theorem discoverLoop_proc (fs : FS) (project : String) (excl : List String)
    (fuel : Nat) (cur : String) (names : List String)
    (rest : List (String × List String)) (processed acc : List String)
    (h1 : cur ∉ processed) (h2 : isExcluded excl cur = false) :
    discoverLoop fs project excl (fuel + 1) ((cur, names) :: rest) processed acc =
      discoverLoop fs project excl fuel
        (enqueueImports fs project (processed ++ [cur]) rest
          (parse_imports_with_names fs cur))
        (processed ++ [cur]) (acc ++ [cur]) := by
  simp [discoverLoop, h1, h2]

theorem extractLoop_nil (fs : FS) (project : String) (excl : List String)
    (fuel : Nat) (st : EState) (h : st.queue = []) :
    extractLoop fs project excl fuel st = .ok st := by
  cases fuel
  · rfl
  · simp [extractLoop, h]

theorem extractLoop_skip (fs : FS) (project : String) (excl : List String)
    (fuel : Nat) (cur : String) (names : List String)
    (rest : List (String × List String))
    (processed : List String) (extracted : List (String × List String))
    (order : List String) (h1 : cur ∈ processed) :
    extractLoop fs project excl (fuel + 1)
      ⟨(cur, names) :: rest, processed, extracted, order⟩ =
      extractLoop fs project excl fuel ⟨rest, processed, extracted, order⟩ := by
  simp [extractLoop, h1]

theorem extractLoop_excl (fs : FS) (project : String) (excl : List String)
    (fuel : Nat) (cur : String) (names : List String)
    (rest : List (String × List String))
    (processed : List String) (extracted : List (String × List String))
    (order : List String) (r : String) (h1 : cur ∉ processed)
    (h2 : isExcluded excl cur = true) (hrel : relTo cur project = some r) :
    extractLoop fs project excl (fuel + 1)
      ⟨(cur, names) :: rest, processed, extracted, order⟩ =
      extractLoop fs project excl fuel
        ⟨rest, processed ++ [cur], extracted, order ++ [cur]⟩ := by
  simp [extractLoop, h1, h2, hrel]

theorem extractLoop_excl_err (fs : FS) (project : String) (excl : List String)
    (fuel : Nat) (cur : String) (names : List String)
    (rest : List (String × List String))
    (processed : List String) (extracted : List (String × List String))
    (order : List String) (h1 : cur ∉ processed)
    (h2 : isExcluded excl cur = true) (hrel : relTo cur project = none) :
    extractLoop fs project excl (fuel + 1)
      ⟨(cur, names) :: rest, processed, extracted, order⟩ = .error () := by
  simp [extractLoop, h1, h2, hrel]

theorem extractLoop_proc (fs : FS) (project : String) (excl : List String)
    (fuel : Nat) (cur : String) (names : List String)
    (rest : List (String × List String))
    (processed : List String) (extracted : List (String × List String))
    (order : List String) (r : String) (code : List String)
    (h1 : cur ∉ processed) (h2 : isExcluded excl cur = false)
    (hrel : relTo cur project = some r)
    (hpf : processFile fs cur names = .ok code) :
    extractLoop fs project excl (fuel + 1)
      ⟨(cur, names) :: rest, processed, extracted, order⟩ =
      extractLoop fs project excl fuel
        ⟨enqueueImports fs project (processed ++ [cur]) rest
          (parse_imports_with_names fs cur),
         processed ++ [cur], setKey extracted cur code, order ++ [cur]⟩ := by
  simp [extractLoop, h1, h2, hrel, hpf]

theorem extractLoop_proc_err_rel (fs : FS) (project : String)
    (excl : List String) (fuel : Nat) (cur : String) (names : List String)
    (rest : List (String × List String))
    (processed : List String) (extracted : List (String × List String))
    (order : List String) (h1 : cur ∉ processed)
    (h2 : isExcluded excl cur = false) (hrel : relTo cur project = none) :
    extractLoop fs project excl (fuel + 1)
      ⟨(cur, names) :: rest, processed, extracted, order⟩ = .error () := by
  simp [extractLoop, h1, h2, hrel]

theorem extractLoop_proc_err_pf (fs : FS) (project : String)
    (excl : List String) (fuel : Nat) (cur : String) (names : List String)
    (rest : List (String × List String))
    (processed : List String) (extracted : List (String × List String))
    (order : List String) (r : String) (h1 : cur ∉ processed)
    (h2 : isExcluded excl cur = false) (hrel : relTo cur project = some r)
    (hpf : processFile fs cur names = .error ()) :
    extractLoop fs project excl (fuel + 1)
      ⟨(cur, names) :: rest, processed, extracted, order⟩ = .error () := by
  simp [extractLoop, h1, h2, hrel, hpf]

/-! ## C6: ordering of one rendered tree level -/

theorem strLtB_asymm : ∀ (a b : List Char), strLtB a b = true →
    strLtB b a = false := by
  intro a
  induction a with
  | nil =>
    intro b h
    cases b with
    | nil => simp [strLtB] at h
    | cons c t => simp [strLtB]
  | cons x xs ih =>
    intro b h
    cases b with
    | nil => simp [strLtB] at h
    | cons y ys =>
      simp only [strLtB] at h ⊢
      by_cases h1 : x.toNat < y.toNat
      · rw [if_neg (by omega), if_pos h1]
      · rw [if_neg h1] at h
        by_cases h2 : y.toNat < x.toNat
        · rw [if_pos h2] at h
          exact absurd h (by simp)
        · rw [if_neg h2] at h
          rw [if_neg h2, if_neg h1]
          exact ih ys h

theorem strLtB_cotrans : ∀ (c a b : List Char), strLtB c a = true →
    strLtB c b = true ∨ strLtB b a = true := by
  intro c
  induction c with
  | nil =>
    intro a b h
    cases a with
    | nil => simp [strLtB] at h
    | cons x xs =>
      cases b with
      | nil => right; simp [strLtB]
      | cons y ys => left; simp [strLtB]
  | cons z zs ih =>
    intro a b h
    cases a with
    | nil => simp [strLtB] at h
    | cons x xs =>
      cases b with
      | nil => right; simp [strLtB]
      | cons y ys =>
        simp only [strLtB] at h ⊢
        by_cases h1 : z.toNat < x.toNat
        · by_cases h2 : z.toNat < y.toNat
          · left; rw [if_pos h2]
          · right; rw [if_pos (by omega)]
        · rw [if_neg h1] at h
          by_cases h3 : x.toNat < z.toNat
          · rw [if_pos h3] at h
            exact absurd h (by simp)
          · rw [if_neg h3] at h
            by_cases h2 : z.toNat < y.toNat
            · left; rw [if_pos h2]
            · by_cases h4 : y.toNat < z.toNat
              · right; rw [if_pos (by omega)]
              · rcases ih xs ys h with h5 | h5
                · left
                  rw [if_neg h2, if_neg h4]
                  exact h5
                · right
                  rw [if_neg (by omega), if_neg (by omega)]
                  exact h5

theorem itemLeB_total (a b : TEntry) (h : itemLeB a b = false) :
    itemLeB b a = true := by
  unfold itemLeB at h ⊢
  by_cases h1 : keyNat a < keyNat b
  · simp [h1] at h
  · by_cases h2 : keyNat b < keyNat a
    · rw [if_pos h2]
    · rw [if_neg h1, if_neg h2] at h
      rw [if_neg h2, if_neg h1]
      have h3 : strLtB b.1.data a.1.data = true := by simpa using h
      simp [strLtB_asymm _ _ h3]

theorem itemLeB_trans (a b c : TEntry) (h1 : itemLeB a b = true)
    (h2 : itemLeB b c = true) : itemLeB a c = true := by
  unfold itemLeB at h1 h2 ⊢
  by_cases hab : keyNat a < keyNat b
  · by_cases hbc : keyNat b < keyNat c
    · rw [if_pos (by omega)]
    · rw [if_neg hbc] at h2
      by_cases hcb : keyNat c < keyNat b
      · rw [if_pos hcb] at h2
        exact absurd h2 (by simp)
      · rw [if_pos (by omega)]
  · rw [if_neg hab] at h1
    by_cases hba : keyNat b < keyNat a
    · rw [if_pos hba] at h1
      exact absurd h1 (by simp)
    · rw [if_neg hba] at h1
      by_cases hbc : keyNat b < keyNat c
      · rw [if_pos (by omega)]
      · rw [if_neg hbc] at h2
        by_cases hcb : keyNat c < keyNat b
        · rw [if_pos hcb] at h2
          exact absurd h2 (by simp)
        · rw [if_neg hcb] at h2
          rw [if_neg (by omega), if_neg (by omega)]
          simp only [Bool.not_eq_true'] at h1 h2 ⊢
          by_cases hca : strLtB c.1.data a.1.data = true
          · rcases strLtB_cotrans _ _ b.1.data hca with h5 | h5
            · rw [h5] at h2
              exact absurd h2 (by simp)
            · rw [h5] at h1
              exact absurd h1 (by simp)
          · simpa using hca

theorem mem_insertLe (a x : TEntry) (l : List TEntry) :
    x ∈ insertLe a l ↔ x = a ∨ x ∈ l := by
  induction l with
  | nil => simp [insertLe]
  | cons b rest ih =>
    by_cases h : itemLeB a b = true
    · simp only [insertLe, if_pos h, List.mem_cons]
      try tauto
    · simp only [insertLe, if_neg h, List.mem_cons, ih]
      try tauto

theorem pairwise_insertLe (a : TEntry) (l : List TEntry)
    (hl : l.Pairwise (fun x y => itemLeB x y = true)) :
    (insertLe a l).Pairwise (fun x y => itemLeB x y = true) := by
  induction l with
  | nil => simp [insertLe]
  | cons b rest ih =>
    rcases List.pairwise_cons.mp hl with ⟨hb, hrest⟩
    by_cases h : itemLeB a b = true
    · simp only [insertLe, if_pos h]
      refine List.pairwise_cons.mpr ⟨?_, hl⟩
      intro y hy
      rcases List.mem_cons.mp hy with rfl | hy
      · exact h
      · exact itemLeB_trans a b y h (hb y hy)
    · simp only [insertLe, if_neg h]
      refine List.pairwise_cons.mpr ⟨?_, ih hrest⟩
      intro y hy
      rcases (mem_insertLe a y rest).mp hy with h6 | hy
      · rw [h6]
        exact itemLeB_total a b (by simpa using h)
      · exact hb y hy

theorem sortItems_pairwise (l : List TEntry) :
    (sortItems l).Pairwise (fun x y => itemLeB x y = true) := by
  induction l with
  | nil => simp [sortItems]
  | cons a rest ih => exact pairwise_insertLe a (sortItems rest) ih

/-- C6 amended: both renderers lay one directory level out in `sortItems`
order, in which every *file* precedes every *directory* (the opposite of
directories-first), and names ascend in code-point order within each
group. -/
theorem tree_level_order_corrected (entries : List TEntry) :
    (sortItems entries).Pairwise (fun a b =>
      (a.2.1 = false → b.2.1 = false) ∧
      (a.2.1 = b.2.1 → strLtB b.1.data a.1.data = false)) := by
  refine (sortItems_pairwise entries).imp ?_
  intro a b h
  unfold itemLeB at h
  constructor
  · intro ha
    by_cases hb : b.2.1 = true
    · exfalso
      simp [keyNat, ha, hb] at h
    · simpa using hb
  · intro hab
    have hk : keyNat a = keyNat b := by simp [keyNat, hab]
    rw [if_neg (by omega), if_neg (by omega)] at h
    simpa using h

/-- The entry list of a tree level holding directory `a` (with one child)
and file `b`, in dict insertion order. -/
def entriesC6 : List TEntry :=
  [("a", false, PTree.mk [("q.py", true, PTree.mk [])]),
   ("b", true, PTree.mk [])]

/-- C6 is false as stated: on a level with directory `a` and file `b`,
sorting puts the file first (directories are *not* first), and both
`write_tree` and `print_tree` render the file line before the directory
line. -/
theorem tree_level_order_cex :
    ¬ (sortItems entriesC6).Pairwise
        (fun a b : TEntry => a.2.1 = true → b.2.1 = true) ∧
    writeTree 3 "" (PTree.mk entriesC6) =
      ["├── 📄 b", "└── 📁 a/", "    └── 📄 q.py"] ∧
    printTreeLines 3 "" 8 (PTree.mk entriesC6) =
      ["├── 📄 b", "└── 📁 a/", "    └── 📄 q.py"] :=
  ⟨by decide, rfl, rfl⟩

/-! ## C10: no truncation in the written manifest -/

/-- Well-formed tree levels: file entries have no children.  This holds
of every tree built from a set of file paths in which no file path is
also used as a directory of another. -/
inductive WFEntries : List TEntry → Prop where
  | nil : WFEntries []
  | consFile (n : String) (child : PTree) (rest : List TEntry)
      (hc : child.entries = []) (hr : WFEntries rest) :
      WFEntries ((n, true, child) :: rest)
  | consDir (n : String) (child : PTree) (rest : List TEntry)
      (hc : WFEntries child.entries) (hr : WFEntries rest) :
      WFEntries ((n, false, child) :: rest)

theorem WFEntries_cons_iff (n : String) (b : Bool) (child : PTree)
    (rest : List TEntry) :
    WFEntries ((n, b, child) :: rest) ↔
      ((b = true ∧ child.entries = []) ∨
        (b = false ∧ WFEntries child.entries)) ∧ WFEntries rest := by
  constructor
  · intro h
    cases h with
    | consFile _ _ _ hc hr => exact ⟨Or.inl ⟨rfl, hc⟩, hr⟩
    | consDir _ _ _ hc hr => exact ⟨Or.inr ⟨rfl, hc⟩, hr⟩
  · rintro ⟨h1, hr⟩
    rcases h1 with ⟨hb, hc⟩ | ⟨hb, hc⟩
    · subst hb
      exact WFEntries.consFile n child rest hc hr
    · subst hb
      exact WFEntries.consDir n child rest hc hr

theorem WFEntries_insertLe (a : TEntry) (l : List TEntry)
    (ha : WFEntries [a]) (hl : WFEntries l) : WFEntries (insertLe a l) := by
  induction l with
  | nil => simpa [insertLe] using ha
  | cons b rest ih =>
    rcases b with ⟨n, bb, child⟩
    rw [WFEntries_cons_iff] at hl
    by_cases h : itemLeB a (n, bb, child) = true
    · simp only [insertLe, if_pos h]
      rcases a with ⟨an, ab, ac⟩
      rw [WFEntries_cons_iff] at ha ⊢
      exact ⟨ha.1, (WFEntries_cons_iff n bb child rest).mpr hl⟩
    · simp only [insertLe, if_neg h]
      rw [WFEntries_cons_iff]
      exact ⟨hl.1, ih hl.2⟩

theorem WFEntries_sortItems (l : List TEntry) (hl : WFEntries l) :
    WFEntries (sortItems l) := by
  induction l with
  | nil => simpa [sortItems] using hl
  | cons a rest ih =>
    rcases a with ⟨n, b, child⟩
    rw [WFEntries_cons_iff] at hl
    refine WFEntries_insertLe (n, b, child) (sortItems rest) ?_ (ih hl.2)
    rw [WFEntries_cons_iff]
    exact ⟨hl.1, WFEntries.nil⟩

theorem countE_nil : countE [] = 0 := by simp [countE]

theorem countE_cons (n : String) (b : Bool) (child : PTree)
    (rest : List TEntry) :
    countE ((n, b, child) :: rest) = 1 + countE child.entries + countE rest := by
  simp [countE]

theorem countE_insertLe (a : TEntry) (l : List TEntry) :
    countE (insertLe a l) = 1 + countE a.2.2.entries + countE l := by
  induction l with
  | nil =>
    rcases a with ⟨n, f, t⟩
    simp [insertLe, countE_cons, countE_nil]
  | cons b rest ih =>
    rcases a with ⟨n, f, t⟩
    rcases b with ⟨n2, f2, t2⟩
    by_cases h : itemLeB (n, f, t) (n2, f2, t2) = true
    · simp only [insertLe, if_pos h, countE_cons]
      try omega
    · simp only [insertLe, if_neg h, countE_cons] at ih ⊢
      try omega

theorem countE_sortItems (l : List TEntry) : countE (sortItems l) = countE l := by
  induction l with
  | nil => simp [sortItems]
  | cons a rest ih =>
    rcases a with ⟨n, b, t⟩
    simp only [sortItems, countE_insertLe, countE_cons, ih]

theorem writeItemsF_length : ∀ (fuel : Nat) (pre : String) (l : List TEntry),
    WFEntries l → countE l ≤ fuel →
    (writeItemsF fuel pre l).length = countE l := by
  intro fuel
  induction fuel with
  | zero =>
    intro pre l hw h
    cases l with
    | nil => simp [writeItemsF, countE_nil]
    | cons e rest =>
      rcases e with ⟨n, b, child⟩
      rw [countE_cons] at h
      omega
  | succ fuel ih =>
    intro pre l hw h
    cases l with
    | nil => simp [writeItemsF, countE_nil]
    | cons e rest =>
      rcases e with ⟨n, b, child⟩
      rw [WFEntries_cons_iff] at hw
      rw [countE_cons] at h
      cases b with
      | true =>
        rcases hw.1 with ⟨_, hc⟩ | ⟨hb, _⟩
        · rw [countE_cons, hc, countE_nil]
          have hr : countE rest ≤ fuel := by
            rw [hc, countE_nil] at h
            omega
          simp only [writeItemsF, List.length_append, List.length_cons,
            List.length_nil, if_pos rfl]
          rw [ih pre rest hw.2 hr]
          simp
        · exact absurd hb (by simp)
      | false =>
        rcases hw.1 with ⟨hb, _⟩ | ⟨_, hc⟩
        · exact absurd hb (by simp)
        · rw [countE_cons]
          have hcc : countE child.entries ≤ fuel := by omega
          have hr : countE rest ≤ fuel := by omega
          simp only [writeItemsF, if_neg (by simp : ¬(false = true)),
            List.length_append, List.length_cons]
          rw [ih _ _ (WFEntries_sortItems _ hc)
              (by rw [countE_sortItems]; exact hcc),
            ih pre rest hw.2 hr, countE_sortItems]
          omega

/-- An empty-ish project file. -/
def pyTiny : PyFile :=
  { lines := ["Z = 1"],
    tree := some { body := [.assign 1 (some 1)],
                   walk := [.assign 1 (some 1)] } }

/-- An entry file plainly importing nine modules of package `d`. -/
def fileC10entry : PyFile :=
  { lines := ["import d.f1, d.f2, d.f3, d.f4, d.f5, d.f6, d.f7, d.f8, d.f9"],
    tree := some
      { body := [.imp ["d.f1", "d.f2", "d.f3", "d.f4", "d.f5", "d.f6",
                       "d.f7", "d.f8", "d.f9"] 1 (some 1)],
        walk := [.imp ["d.f1", "d.f2", "d.f3", "d.f4", "d.f5", "d.f6",
                       "d.f7", "d.f8", "d.f9"] 1 (some 1)] } }

/-- A project whose `d` directory holds nine extracted files — more than
the console display threshold of 8. -/
def fsC10 : FS :=
  [("p/e.py", fileC10entry),
   ("p/d/f1.py", pyTiny), ("p/d/f2.py", pyTiny), ("p/d/f3.py", pyTiny),
   ("p/d/f4.py", pyTiny), ("p/d/f5.py", pyTiny), ("p/d/f6.py", pyTiny),
   ("p/d/f7.py", pyTiny), ("p/d/f8.py", pyTiny), ("p/d/f9.py", pyTiny)]

/-- The files the run over `fsC10` extracts, in discovery order. -/
def keysC10 : List String :=
  ["p/e.py", "p/d/f1.py", "p/d/f2.py", "p/d/f3.py", "p/d/f4.py",
   "p/d/f5.py", "p/d/f6.py", "p/d/f7.py", "p/d/f8.py", "p/d/f9.py"]

/-- C10: the written manifest does not truncate.  In general, the lines
`write_tree` renders for a well-formed level (given fuel covering the
node count, as the artifact always supplies) number exactly one per node,
with every directory recursed into regardless of its size; concretely, a
run whose `d` directory holds nine files writes `f9.py` into the output
artifact's tree, while `print_tree` at the default threshold 8 shows no
line for `f9.py` on the very same tree. -/
theorem write_tree_no_truncation :
    (∀ (fuel : Nat) (pre : String) (l : List TEntry), WFEntries l →
      countE l ≤ fuel → (writeItemsF fuel pre l).length = countE l) ∧
    "    └── 📄 f9.py" ∈
      (match extract_used_code fsC10 "p" "p/e.py" "o" [] with
        | .ok a => a.treeLines
        | .error _ => []) ∧
    (match buildTree keysC10 "p" with
      | some t =>
        (printTreeLines 20 "" 8 t).all (fun ln => !(strContains ln "f9.py"))
      | none => false) = true := by
  refine ⟨writeItemsF_length, ?_, ?_⟩
  · decide
  · decide

/-- A small well-formed level: one file beside a directory holding one
file. -/
def entriesW10 : List TEntry :=
  [("a.py", true, PTree.mk []),
   ("d", false, PTree.mk [("b.py", true, PTree.mk [])])]

theorem entriesW10_wf : WFEntries entriesW10 := by
  repeat
    first
    | exact WFEntries.nil
    | refine WFEntries.consFile _ _ _ rfl ?_
    | refine WFEntries.consDir _ _ _ ?_ ?_

theorem entriesW10_count : countE entriesW10 = 3 := by
  simp [entriesW10, countE_cons, countE_nil, PTree.entries]

/-- Witness for the universally quantified part of C10. -/
theorem write_tree_no_truncation_witness :
    (writeItemsF 5 "" entriesW10).length = countE entriesW10 :=
  write_tree_no_truncation.1 5 "" entriesW10 entriesW10_wf
    (by rw [entriesW10_count]; omega)

/-! ## C9: an excluded entry is not an error -/

/-- C9: when the entry path lies under the project root and matches an
exclude pattern, the run completes normally: nothing is parsed or
extracted, and the artifact carries a zero file count, an empty tree and
no code sections. -/
theorem excluded_entry_completes (fs : FS) (project entry outF : String)
    (excl : List String) (r : String)
    (hrel : relTo entry project = some r)
    (hex : isExcluded excl entry = true) :
    extract_used_code fs project entry outF excl =
      .ok { totalFiles := 0, projectRoot := project, treeLines := [],
            sections := [] } := by
  have hd : discover_files fs project entry excl = [] := by
    unfold discover_files topFuel
    rw [discoverLoop_excl fs project excl _ entry ["*"] [] [] [] (by simp) hex]
    exact discoverLoop_nil _ _ _ _ _ _
  have hp : extractPhase fs project entry excl =
      .ok ⟨[], [entry], [], [entry]⟩ := by
    unfold extractPhase topFuel
    rw [extractLoop_excl fs project excl _ entry ["*"] [] [] [] [] r
        (by simp) hex hrel]
    exact extractLoop_nil _ _ _ _ _ rfl
  unfold extract_used_code
  simp only [hd, hp]
  rfl

/-- The one-file project used to witness C9. -/
def fsC9 : FS := [("p/a.py", pyTiny)]

/-- Witness for C9: an excluded entry under the root yields the empty
artifact. -/
theorem excluded_entry_completes_witness :
    extract_used_code fsC9 "p" "p/sub/e.py" "o" ["sub"] =
      .ok { totalFiles := 0, projectRoot := "p", treeLines := [],
            sections := [] } :=
  excluded_entry_completes fsC9 "p" "p/sub/e.py" "o" ["sub"] "sub/e.py" rfl rfl

/-! ## C7: a missing entry file -/

/-- C7 counterexample: the claim fails as stated.  With an entry path
that does not exist but matches an exclude pattern, the run does not
abort: it completes normally and produces the (empty) output artifact. -/
theorem fatal_entry_cex :
    lookupA ([] : FS) "p/gone.py" = none ∧
    isExcluded ["gone"] "p/gone.py" = true ∧
    extract_used_code [] "p" "p/gone.py" "o" ["gone"] =
      .ok { totalFiles := 0, projectRoot := "p", treeLines := [],
            sections := [] } :=
  ⟨rfl, rfl, rfl⟩

/-- C7 amended: when the entry file does not exist *and its path matches
no exclude pattern*, the run terminates exceptionally (at the unguarded
wildcard `open`, or already at a failing `relative_to`) before the output
artifact is produced. -/
theorem fatal_entry_missing (fs : FS) (project entry outF : String)
    (excl : List String) (hmiss : lookupA fs entry = none)
    (hnex : isExcluded excl entry = false) :
    extract_used_code fs project entry outF excl = .error () := by
  have himp : parse_imports_with_names fs entry = [] := by
    simp [parse_imports_with_names, hmiss]
  have hd : discover_files fs project entry excl = [entry] := by
    unfold discover_files topFuel
    rw [discoverLoop_proc fs project excl _ entry ["*"] [] [] [] (by simp) hnex]
    rw [himp]
    rw [show enqueueImports fs project ([] ++ [entry]) [] [] = [] from rfl]
    exact discoverLoop_nil _ _ _ _ _ _
  unfold extract_used_code
  simp only [hd]
  rcases hr : relTo entry project with _ | r
  · have hb : buildTree [entry] project = none := by
      simp [buildTree, hr]
    simp only [hb]
  · have hb : buildTree [entry] project =
        some ((PTree.mk []).insertPath (splitSlash r)) := by
      simp [buildTree, hr]
    simp only [hb]
    by_cases hall : (dirLabelOf entry project).isSome = true
    · have hp : extractPhase fs project entry excl = .error () := by
        unfold extractPhase topFuel
        exact extractLoop_proc_err_pf fs project excl _ entry ["*"] [] [] [] [] r
          (by simp) hnex hr (by simp [processFile, hmiss])
      simp [hall, hp]
    · simp [List.all_cons, List.all_nil, hall]

/-- The one-file project used to witness the amended C7. -/
def fsC7 : FS := [("p/a.py", pyTiny)]

/-- Witness for the amended C7: a missing, non-excluded entry aborts the
run with no artifact. -/
theorem fatal_entry_missing_witness :
    extract_used_code fsC7 "p" "p/zz.py" "o" ["q"] = .error () :=
  fatal_entry_missing fsC7 "p" "p/zz.py" "o" ["q"] rfl rfl

/-! ## C1 / C2: how queued requests combine

The enqueue block never merges: it appends a fresh `(file, names)` entry
even when the file is already queued, and a file is extracted with the
names of its chronologically first enqueued entry — later entries are
discarded at dequeue because the file is already processed. -/

theorem enqueueStep_extends (fs : FS) (project : String)
    (processed : List String) (queue : List (String × List String))
    (mn : String × List String) :
    ∃ app,
      (if skipList.contains mn.1 then queue
       else
        match resolve_import_to_file fs mn.1 project with
        | some fp =>
          if processed.contains fp then queue else queue ++ [(fp, mn.2)]
        | none => queue) = queue ++ app := by
  by_cases h1 : mn.1 ∈ skipList
  · exact ⟨[], by simp [h1]⟩
  · rcases h2 : resolve_import_to_file fs mn.1 project with _ | fp
    · exact ⟨[], by simp [h1, h2]⟩
    · by_cases h3 : fp ∈ processed
      · exact ⟨[], by simp [h1, h2, h3]⟩
      · exact ⟨[(fp, mn.2)], by simp [h1, h2, h3]⟩

theorem enqueueImports_extends (fs : FS) (project : String)
    (processed : List String) :
    ∀ (imports queue : List (String × List String)),
    ∃ app, enqueueImports fs project processed queue imports = queue ++ app := by
  intro imports
  induction imports with
  | nil => intro queue; exact ⟨[], by simp [enqueueImports]⟩
  | cons mn rest ih =>
    intro queue
    rcases enqueueStep_extends fs project processed queue mn with ⟨a0, h0⟩
    rcases ih (queue ++ a0) with ⟨a1, h1⟩
    refine ⟨a0 ++ a1, ?_⟩
    rw [enqueueImports, h0, h1, List.append_assoc]

/-- The request names of the chronologically first queue entry for `f`. -/
def firstEntry (queue : List (String × List String)) (f : String) :
    Option (List String) :=
  match queue with
  | [] => none
  | (p, ns) :: rest => if p = f then some ns else firstEntry rest f

theorem firstEntry_append_left (q q2 : List (String × List String))
    (f : String) (ns : List String) (h : firstEntry q f = some ns) :
    firstEntry (q ++ q2) f = some ns := by
  induction q with
  | nil => simp [firstEntry] at h
  | cons e rest ih =>
    rcases e with ⟨p, ms⟩
    by_cases hp : p = f
    · simpa [firstEntry, hp] using h
    · simp only [firstEntry, if_neg hp] at h
      simpa [firstEntry, hp] using ih h

theorem keysList_setKey_subset {β : Type} (d : List (String × β))
    (key k : String) (v : β) (h : k ∈ keysList (setKey d key v)) :
    k ∈ keysList d ∨ k = key := by
  by_cases hm : key ∈ keysList d
  · rw [keysList_setKey_mem d key v hm] at h
    exact Or.inl h
  · rw [keysList_setKey_fresh d key v hm] at h
    rcases List.mem_append.mp h with h | h
    · exact Or.inl h
    · exact Or.inr (by simpa using h)

/-- Once a file is processed, its recorded extraction (or absence) never
changes for the rest of the run. -/
theorem extractLoop_frozen (fs : FS) (project : String) (excl : List String) :
    ∀ (fuel : Nat) (st res : EState) (f : String),
    extractLoop fs project excl fuel st = .ok res → f ∈ st.processed →
    lookupA res.extracted f = lookupA st.extracted f := by
  intro fuel
  induction fuel with
  | zero =>
    intro st res f h hf
    simp only [extractLoop, Except.ok.injEq] at h
    rw [← h]
  | succ fuel ih =>
    intro st res f h hf
    rcases st with ⟨queue, processed, extracted, order⟩
    cases queue with
    | nil =>
      rw [extractLoop_nil _ _ _ _ _ rfl] at h
      simp only [Except.ok.injEq] at h
      rw [← h]
    | cons e rest =>
      rcases e with ⟨cur, names⟩
      simp only [EState.processed] at hf
      show lookupA res.extracted f = lookupA extracted f
      by_cases h1 : cur ∈ processed
      · rw [extractLoop_skip _ _ _ _ _ _ _ _ _ _ h1] at h
        exact ih _ _ f h hf
      · by_cases h2 : isExcluded excl cur = true
        · rcases hr : relTo cur project with _ | r
          · rw [extractLoop_excl_err _ _ _ _ _ _ _ _ _ _ h1 h2 hr] at h
            cases h
          · rw [extractLoop_excl _ _ _ _ _ _ _ _ _ _ r h1 h2 hr] at h
            exact ih _ _ f h (by simp [hf])
        · replace h2 : isExcluded excl cur = false := by simpa using h2
          rcases hr : relTo cur project with _ | r
          · rw [extractLoop_proc_err_rel _ _ _ _ _ _ _ _ _ _ h1 h2 hr] at h
            cases h
          · rcases hpf : processFile fs cur names with u | code
            · cases u
              rw [extractLoop_proc_err_pf _ _ _ _ _ _ _ _ _ _ r h1 h2 hr hpf] at h
              cases h
            · rw [extractLoop_proc _ _ _ _ _ _ _ _ _ _ r code h1 h2 hr hpf] at h
              have hres := ih _ _ f h (by simp [hf])
              rw [hres]
              exact lookupA_setKey_ne extracted cur f code
                (fun he => h1 (he ▸ hf))

/-- The chronologically first enqueued request for a not-yet-processed
file determines its extraction: either the file is never dequeued within
the run, or its final entry is exactly `processFile` applied to the
*first* request's names — requests arriving later are never merged in. -/
theorem extractLoop_first_request (fs : FS) (project : String)
    (excl : List String) :
    ∀ (fuel : Nat) (queue : List (String × List String))
      (processed : List String) (extracted : List (String × List String))
      (order : List String) (res : EState) (f : String) (ns : List String),
    extractLoop fs project excl fuel ⟨queue, processed, extracted, order⟩ =
      .ok res →
    f ∉ processed →
    (∀ k ∈ keysList extracted, k ∈ processed) →
    firstEntry queue f = some ns →
    lookupA res.extracted f = none ∨
      ∃ code, processFile fs f ns = .ok code ∧
        lookupA res.extracted f = some code := by
  intro fuel
  induction fuel with
  | zero =>
    intro queue processed extracted order res f ns h hf hk hq
    simp only [extractLoop, Except.ok.injEq] at h
    rw [← h]
    left
    exact (lookupA_eq_none_iff extracted f).mpr (fun hm => hf (hk f hm))
  | succ fuel ih =>
    intro queue processed extracted order res f ns h hf hk hq
    cases queue with
    | nil => simp [firstEntry] at hq
    | cons e rest =>
      rcases e with ⟨cur, ms⟩
      by_cases h1 : cur ∈ processed
      · have hcf : cur ≠ f := fun he => hf (he ▸ h1)
        rw [extractLoop_skip _ _ _ _ _ _ _ _ _ _ h1] at h
        simp only [firstEntry, if_neg hcf] at hq
        exact ih rest processed extracted order res f ns h hf hk hq
      · by_cases h2 : isExcluded excl cur = true
        · rcases hr : relTo cur project with _ | r
          · rw [extractLoop_excl_err _ _ _ _ _ _ _ _ _ _ h1 h2 hr] at h
            cases h
          · rw [extractLoop_excl _ _ _ _ _ _ _ _ _ _ r h1 h2 hr] at h
            by_cases hcf : cur = f
            · subst hcf
              left
              have hfrozen := extractLoop_frozen fs project excl fuel _ _ cur h
                (by simp)
              rw [hfrozen]
              exact (lookupA_eq_none_iff extracted cur).mpr
                (fun hm => h1 (hk cur hm))
            · simp only [firstEntry, if_neg hcf] at hq
              refine ih rest (processed ++ [cur]) extracted (order ++ [cur])
                res f ns h ?_ ?_ hq
              · simp only [List.mem_append, List.mem_singleton]
                rintro (hc | hc)
                · exact hf hc
                · exact hcf hc.symm
              · intro k hm
                exact List.mem_append.mpr (Or.inl (hk k hm))
        · replace h2 : isExcluded excl cur = false := by simpa using h2
          rcases hr : relTo cur project with _ | r
          · rw [extractLoop_proc_err_rel _ _ _ _ _ _ _ _ _ _ h1 h2 hr] at h
            cases h
          · rcases hpf : processFile fs cur ms with u | code
            · cases u
              rw [extractLoop_proc_err_pf _ _ _ _ _ _ _ _ _ _ r h1 h2 hr hpf] at h
              cases h
            · rw [extractLoop_proc _ _ _ _ _ _ _ _ _ _ r code h1 h2 hr hpf] at h
              by_cases hcf : cur = f
              · subst hcf
                simp [firstEntry] at hq
                subst hq
                right
                refine ⟨code, hpf, ?_⟩
                have hfrozen := extractLoop_frozen fs project excl fuel _ _ cur h
                  (by simp)
                rw [hfrozen]
                exact lookupA_setKey_self extracted cur code
              · simp only [firstEntry, if_neg hcf] at hq
                rcases enqueueImports_extends fs project (processed ++ [cur])
                  (parse_imports_with_names fs cur) rest with ⟨app, happ⟩
                refine ih _ (processed ++ [cur]) (setKey extracted cur code)
                  (order ++ [cur]) res f ns h ?_ ?_ ?_
                · simp only [List.mem_append, List.mem_singleton]
                  rintro (hc | hc)
                  · exact hf hc
                  · exact hcf hc.symm
                · intro k hm
                  rcases keysList_setKey_subset extracted cur k code hm with hm | hm
                  · exact List.mem_append.mpr (Or.inl (hk k hm))
                  · exact List.mem_append.mpr (Or.inr (by simp [hm]))
                · rw [happ]
                  exact firstEntry_append_left rest app f ns hq

/-- C2 corrected: no merging happens on enqueue.  A newly arriving
request for an already-queued file is *appended* as a separate queue
entry (the enqueue block only ever appends to the queue), and the request
set used when the file is first dequeued is exactly the one from its
chronologically first enqueued entry — not the union of the requests that
arrived up to that moment. -/
theorem request_merging_corrected :
    (∀ (fs : FS) (project : String) (processed : List String)
       (imports queue : List (String × List String)),
      ∃ app, enqueueImports fs project processed queue imports = queue ++ app) ∧
    (∀ (fs : FS) (project : String) (excl : List String) (fuel : Nat)
       (queue : List (String × List String)) (processed : List String)
       (extracted : List (String × List String)) (order : List String)
       (res : EState) (f : String) (ns : List String),
      extractLoop fs project excl fuel ⟨queue, processed, extracted, order⟩ =
        .ok res →
      f ∉ processed → (∀ k ∈ keysList extracted, k ∈ processed) →
      firstEntry queue f = some ns →
      lookupA res.extracted f = none ∨
        ∃ code, processFile fs f ns = .ok code ∧
          lookupA res.extracted f = some code) :=
  ⟨enqueueImports_extends, extractLoop_first_request⟩

/-- Entry file of the C2 counterexample: `from a import g` then
`from b import foo`. -/
def fileC2e : PyFile :=
  { lines := ["from a import g", "from b import foo"],
    tree := some { body := [.fromImp (some "a") ["g"] 1 (some 1),
                            .fromImp (some "b") ["foo"] 2 (some 2)],
                   walk := [.fromImp (some "a") ["g"] 1 (some 1),
                            .fromImp (some "b") ["foo"] 2 (some 2)] } }

/-- `a.py` of the C2 counterexample: `from b import bar`, a second
request for `b` arriving while `b` is queued but not yet processed. -/
def fileC2a : PyFile :=
  { lines := ["from b import bar"],
    tree := some { body := [.fromImp (some "b") ["bar"] 1 (some 1)],
                   walk := [.fromImp (some "b") ["bar"] 1 (some 1)] } }

/-- `b.py` of the C2 counterexample, defining `foo` and `bar`. -/
def fileC2b : PyFile :=
  { lines := ["def foo():", "    return 1", "def bar():", "    return 2"],
    tree := some { body := [.defStmt "foo" 1 (some 2),
                            .defStmt "bar" 3 (some 4)],
                   walk := [.defStmt "foo" 1 (some 2),
                            .defStmt "bar" 3 (some 4)] } }

/-- The three-file project of the C2 counterexample. -/
def fsC2 : FS :=
  [("p/e2.py", fileC2e), ("p/a.py", fileC2a), ("p/b.py", fileC2b)]

/-- C2 counterexample: in the run over `fsC2`, requests `['foo']` (from
the entry) and `['bar']` (from `a.py`, arriving while `b.py` is queued
but unprocessed) point at `b.py`, yet `b.py` is extracted from `['foo']`
alone; extraction from the merged set `['foo', 'bar']` would also contain
`bar`'s body, so the claimed set-union merge does not happen. -/
theorem request_merging_cex :
    (match extractPhase fsC2 "p" "p/e2.py" [] with
      | .ok st => lookupA st.extracted "p/b.py"
      | .error _ => none) = some ["", "def foo():", "    return 1"] ∧
    processFile fsC2 "p/b.py" ["foo", "bar"] =
      .ok ["", "def foo():", "    return 1", "", "",
           "def bar():", "    return 2"] ∧
    (["", "def foo():", "    return 1"] : List String) ≠
      ["", "def foo():", "    return 1", "", "", "def bar():", "    return 2"] :=
  ⟨rfl, rfl, by decide⟩

/-- The final state a run reaches from the witness configuration below. -/
def resC2w : EState :=
  ⟨[], ["p/e2.py", "p/a.py", "p/b.py"],
   [("p/b.py", ["", "def foo():", "    return 1"])], ["p/b.py"]⟩

/-- Witness for the corrected C2, at a state about to dequeue `b.py` with
its first-arrived request `['foo']`. -/
theorem request_merging_corrected_witness :
    lookupA resC2w.extracted "p/b.py" = none ∨
      ∃ code, processFile fsC2 "p/b.py" ["foo"] = .ok code ∧
        lookupA resC2w.extracted "p/b.py" = some code :=
  request_merging_corrected.2 fsC2 "p" [] 5 [("p/b.py", ["foo"])]
    ["p/e2.py", "p/a.py"] [] [] resC2w "p/b.py" ["foo"]
    rfl (by decide) (by simp [keysList]) rfl

/-- C1 corrected: a file's final extraction is its entire raw content
whenever the *first* enqueued request for it contains the wildcard; a
plain `import X` whose request reaches the queue only after a narrower
request for `X` was already enqueued does not upgrade the extraction. -/
theorem wildcard_first_request (fs : FS) (project : String)
    (excl : List String) (fuel : Nat)
    (queue : List (String × List String)) (processed : List String)
    (extracted : List (String × List String)) (order : List String)
    (res : EState) (f : String) (ns : List String) (file : PyFile)
    (h : extractLoop fs project excl fuel
      ⟨queue, processed, extracted, order⟩ = .ok res)
    (hf : f ∉ processed) (hk : ∀ k ∈ keysList extracted, k ∈ processed)
    (hq : firstEntry queue f = some ns) (hstar : "*" ∈ ns)
    (hfile : lookupA fs f = some file) :
    lookupA res.extracted f = none ∨
      lookupA res.extracted f = some file.lines := by
  rcases extractLoop_first_request fs project excl fuel queue processed
    extracted order res f ns h hf hk hq with hnone | ⟨code, hpf, hlook⟩
  · exact Or.inl hnone
  · right
    have hcontains : ns.contains "*" = true := by
      simpa using hstar
    rw [processFile, if_pos hcontains, hfile] at hpf
    simp only [Except.ok.injEq] at hpf
    rw [hlook, ← hpf]

/-- Entry file of the C1 counterexample: `from a import g` then
`from x import foo` — the narrow request for `x` is enqueued first. -/
def fileC1e : PyFile :=
  { lines := ["from a import g", "from x import foo"],
    tree := some { body := [.fromImp (some "a") ["g"] 1 (some 1),
                            .fromImp (some "x") ["foo"] 2 (some 2)],
                   walk := [.fromImp (some "a") ["g"] 1 (some 1),
                            .fromImp (some "x") ["foo"] 2 (some 2)] } }

/-- `a.py` of the C1 counterexample: `import x`, a WILDCARD request for
`x` arriving while `x` is queued with the narrow request. -/
def fileC1a : PyFile :=
  { lines := ["import x"],
    tree := some { body := [.imp ["x"] 1 (some 1)],
                   walk := [.imp ["x"] 1 (some 1)] } }

/-- `x.py` of the C1 counterexample. -/
def fileC1x : PyFile :=
  { lines := ["IMPORTANT = 1", "def foo():", "    return 1",
              "def bar():", "    return 2"],
    tree := some { body := [.assign 1 (some 1),
                            .defStmt "foo" 2 (some 3),
                            .defStmt "bar" 4 (some 5)],
                   walk := [.assign 1 (some 1),
                            .defStmt "foo" 2 (some 3),
                            .defStmt "bar" 4 (some 5)] } }

/-- The three-file project of the C1 counterexample. -/
def fsC1 : FS :=
  [("p/e.py", fileC1e), ("p/a.py", fileC1a), ("p/x.py", fileC1x)]

/-- C1 counterexample: in the run over `fsC1`, the processed file `a.py`
requests `x` via a plain `import x` (a WILDCARD request), yet the final
entry for `x.py` is the partial extraction of `foo` with the prologue —
not `x.py`'s raw content — because the narrower request from the entry
file was enqueued first. -/
theorem wildcard_precedence_cex :
    lookupA (parse_imports_with_names fsC1 "p/a.py") "x" = some ["*"] ∧
    (match extractPhase fsC1 "p" "p/e.py" [] with
      | .ok st => keysList st.extracted
      | .error _ => []) = ["p/e.py", "p/a.py", "p/x.py"] ∧
    (match extractPhase fsC1 "p" "p/e.py" [] with
      | .ok st => lookupA st.extracted "p/x.py"
      | .error _ => none) =
      some ["IMPORTANT = 1", "", "", "def foo():", "    return 1"] ∧
    some ["IMPORTANT = 1", "", "", "def foo():", "    return 1"] ≠
      some fileC1x.lines :=
  ⟨rfl, rfl, rfl, by decide⟩

/-- The final state a run reaches from the C1 witness configuration. -/
def resC1w : EState :=
  ⟨[], ["p/n.py"], [("p/n.py", ["Z = 1"])], ["p/n.py"]⟩

/-- One-file project for the C1 witness. -/
def fsC1w : FS := [("p/n.py", pyTiny)]

/-- Witness for the corrected C1: a first-enqueued wildcard request does
yield the whole raw file. -/
theorem wildcard_first_request_witness :
    lookupA resC1w.extracted "p/n.py" = none ∨
      lookupA resC1w.extracted "p/n.py" = some pyTiny.lines :=
  wildcard_first_request fsC1w "p" [] 3 [("p/n.py", ["*"])] [] [] []
    resC1w "p/n.py" ["*"] pyTiny rfl (by decide) (by simp [keysList])
    rfl (by decide) rfl

/-! ## C3: the two passes visit the same files in the same order -/

/-- The discovery loop and the extraction loop walk the queue in
lockstep: from the same queue and processed set, the files `discover`
records are exactly the keys the extraction loop adds, in order. -/
theorem loops_sync (fs : FS) (project : String) (excl : List String) :
    ∀ (fuel : Nat) (queue : List (String × List String))
      (processed : List String) (extracted : List (String × List String))
      (order : List String) (res : EState),
    extractLoop fs project excl fuel ⟨queue, processed, extracted, order⟩ =
      .ok res →
    (∀ k ∈ keysList extracted, k ∈ processed) →
    discoverLoop fs project excl fuel queue processed (keysList extracted) =
      keysList res.extracted := by
  intro fuel
  induction fuel with
  | zero =>
    intro queue processed extracted order res h hk
    simp only [extractLoop, Except.ok.injEq] at h
    rw [← h]
    rfl
  | succ fuel ih =>
    intro queue processed extracted order res h hk
    cases queue with
    | nil =>
      rw [extractLoop_nil _ _ _ _ _ rfl] at h
      simp only [Except.ok.injEq] at h
      rw [← h]
      exact discoverLoop_nil _ _ _ _ _ _
    | cons e rest =>
      rcases e with ⟨cur, names⟩
      by_cases h1 : cur ∈ processed
      · rw [extractLoop_skip _ _ _ _ _ _ _ _ _ _ h1] at h
        rw [discoverLoop_skip _ _ _ _ _ _ _ _ _ h1]
        exact ih rest processed extracted order res h hk
      · by_cases h2 : isExcluded excl cur = true
        · rcases hr : relTo cur project with _ | r
          · rw [extractLoop_excl_err _ _ _ _ _ _ _ _ _ _ h1 h2 hr] at h
            cases h
          · rw [extractLoop_excl _ _ _ _ _ _ _ _ _ _ r h1 h2 hr] at h
            rw [discoverLoop_excl _ _ _ _ _ _ _ _ _ h1 h2]
            exact ih rest (processed ++ [cur]) extracted (order ++ [cur]) res h
              (fun k hm => List.mem_append.mpr (Or.inl (hk k hm)))
        · replace h2 : isExcluded excl cur = false := by simpa using h2
          rcases hr : relTo cur project with _ | r
          · rw [extractLoop_proc_err_rel _ _ _ _ _ _ _ _ _ _ h1 h2 hr] at h
            cases h
          · rcases hpf : processFile fs cur names with u | code
            · cases u
              rw [extractLoop_proc_err_pf _ _ _ _ _ _ _ _ _ _ r h1 h2 hr hpf] at h
              cases h
            · rw [extractLoop_proc _ _ _ _ _ _ _ _ _ _ r code h1 h2 hr hpf] at h
              rw [discoverLoop_proc _ _ _ _ _ _ _ _ _ h1 h2]
              have hfresh : cur ∉ keysList extracted := fun hm => h1 (hk cur hm)
              rw [← keysList_setKey_fresh extracted cur code hfresh]
              refine ih _ (processed ++ [cur]) (setKey extracted cur code)
                (order ++ [cur]) res h ?_
              intro k hm
              rcases keysList_setKey_subset extracted cur k code hm with hm | hm
              · exact List.mem_append.mpr (Or.inl (hk k hm))
              · exact List.mem_append.mpr (Or.inr (by simp [hm]))

theorem buildSection_path (project : String) (pc : String × List String)
    (sec : Section) (h : buildSection project pc = some sec) :
    sec.path = pc.1 := by
  unfold buildSection at h
  rcases h1 : relTo pc.1 project with _ | rp <;> rw [h1] at h
  · cases h
  · rcases h2 : dirLabelOf pc.1 project with _ | dl <;> rw [h2] at h
    · cases h
    · simp only [Option.some.injEq] at h
      rw [← h]

theorem buildSections_paths (project : String) :
    ∀ (d : List (String × List String)) (sections : List Section),
    buildSections project d = some sections →
    sections.map Section.path = keysList d := by
  intro d
  induction d with
  | nil =>
    intro sections h
    simp only [buildSections, Option.some.injEq] at h
    rw [← h]
    rfl
  | cons pc rest ih =>
    intro sections h
    simp only [buildSections] at h
    rcases hsec : buildSection project pc with _ | sec <;> rw [hsec] at h <;>
      try dsimp only at h
    · cases h
    · rcases hm2 : buildSections project rest with _ | ss <;> rw [hm2] at h <;>
        try dsimp only at h
      · cases h
      · simp only [Option.some.injEq] at h
        rw [← h]
        simp [keysList, buildSection_path project pc sec hsec, ih ss hm2]

/-- Inversion of a successful `extract_used_code` run: the artifact is
assembled from a successful extraction phase. -/
theorem extract_used_code_ok_inv (fs : FS) (project entry outF : String)
    (excl : List String) (art : Artifact)
    (h : extract_used_code fs project entry outF excl = .ok art) :
    ∃ st sections tree,
      extractPhase fs project entry excl = .ok st ∧
      buildTree (keysList st.extracted) project = some tree ∧
      buildSections project st.extracted = some sections ∧
      art.sections = sections := by
  simp only [extract_used_code] at h
  rcases hb1 : buildTree (discover_files fs project entry excl) project
    with _ | t1 <;> rw [hb1] at h <;> try dsimp only at h
  · cases h
  · rcases hall : (discover_files fs project entry excl).all
        (fun f => (dirLabelOf f project).isSome) with _ | _ <;> rw [hall] at h
    · rw [if_neg (by simp)] at h
      cases h
    · rw [if_pos rfl] at h
      rcases hp : extractPhase fs project entry excl with u | st <;>
        rw [hp] at h <;> dsimp only at h
      · cases h
      · rcases hb2 : buildTree (keysList st.extracted) project with _ | tree <;>
          rw [hb2] at h <;> dsimp only at h
        · cases h
        · rcases hm : buildSections project st.extracted
            with _ | sections <;> rw [hm] at h <;> dsimp only at h
          · cases h
          · simp only [Except.ok.injEq] at h
            exact ⟨st, sections, tree, rfl, hb2, hm, by rw [← h]⟩

/-- C3: whenever a run of `extract_used_code` completes, the file list
returned by `discover_files` equals — same members, same order — the key
sequence of the `extracted_code` mapping built by the extraction phase,
which is also the path sequence of the artifact's code sections. -/
theorem two_pass_equivalence (fs : FS) (project entry outF : String)
    (excl : List String) (art : Artifact) (st : EState)
    (hrun : extract_used_code fs project entry outF excl = .ok art)
    (hst : extractPhase fs project entry excl = .ok st) :
    discover_files fs project entry excl = keysList st.extracted ∧
    art.sections.map Section.path = keysList st.extracted := by
  constructor
  · unfold discover_files
    unfold extractPhase at hst
    have hsync := loops_sync fs project excl (topFuel fs entry)
      [(entry, ["*"])] [] [] [] st hst (by simp [keysList])
    simpa [keysList] using hsync
  · rcases extract_used_code_ok_inv fs project entry outF excl art hrun
      with ⟨st2, sections, tree, hp, _, hm, hsec⟩
    rw [hp] at hst
    simp only [Except.ok.injEq] at hst
    subst hst
    rw [hsec]
    exact buildSections_paths project st2.extracted sections hm

/-- Entry file of the C3 witness project: `import n`. -/
def fileC3m : PyFile :=
  { lines := ["import n"],
    tree := some { body := [.imp ["n"] 1 (some 1)],
                   walk := [.imp ["n"] 1 (some 1)] } }

/-- The two-file project of the C3 witness. -/
def fsC3 : FS := [("p/m.py", fileC3m), ("p/n.py", pyTiny)]

/-- The extraction-phase state the C3 witness run reaches. -/
def stC3 : EState :=
  ⟨[], ["p/m.py", "p/n.py"],
   [("p/m.py", ["import n"]), ("p/n.py", ["Z = 1"])],
   ["p/m.py", "p/n.py"]⟩

/-- The artifact the C3 witness run writes. -/
def artC3 : Artifact :=
  { totalFiles := 2, projectRoot := "p",
    treeLines := ["├── 📄 m.py", "└── 📄 n.py"],
    sections :=
      [⟨"p/m.py", "m.py", "(root)", 1, ["import n"]⟩,
       ⟨"p/n.py", "n.py", "(root)", 1, ["Z = 1"]⟩] }

/-- Witness for C3 at a concrete completed run. -/
theorem two_pass_equivalence_witness :
    discover_files fsC3 "p" "p/m.py" [] = keysList stC3.extracted ∧
    artC3.sections.map Section.path = keysList stC3.extracted :=
  two_pass_equivalence fsC3 "p" "p/m.py" "o" [] artC3 stC3 rfl rfl

/-! ## C4: each reachable file exactly once, in discovery order -/

/-- The files one processed file's import edges lead to: parsed imports,
minus the skip list, resolved to project files. -/
def edgeTargets (fs : FS) (project : String) (p : String) : List String :=
  (parse_imports_with_names fs p).filterMap (fun mn =>
    if skipList.contains mn.1 then none
    else resolve_import_to_file fs mn.1 project)

/-- Reachability from the entry file through resolvable import edges of
non-excluded files. -/
inductive Reachable (fs : FS) (project : String) (excl : List String)
    (entry : String) : String → Prop where
  | entry : Reachable fs project excl entry entry
  | step (p q : String) : Reachable fs project excl entry p →
      isExcluded excl p = false → q ∈ edgeTargets fs project p →
      Reachable fs project excl entry q

theorem lookupA_isSome_mem {β : Type} (d : List (String × β)) (k : String)
    (h : (lookupA d k).isSome = true) : k ∈ keysList d := by
  by_cases hm : k ∈ keysList d
  · exact hm
  · rw [(lookupA_eq_none_iff d k).mpr hm] at h
    simp at h

theorem resolve_mem (fs : FS) (m project fp : String)
    (h : resolve_import_to_file fs m project = some fp) :
    fp ∈ keysList fs := by
  simp only [resolve_import_to_file] at h
  by_cases h1 : (lookupA fs (project ++ "/" ++ dotToSlash m ++ ".py")).isSome
  · rw [if_pos h1] at h
    simp only [Option.some.injEq] at h
    rw [← h]
    exact lookupA_isSome_mem _ _ h1
  · rw [if_neg h1] at h
    by_cases h2 : (lookupA fs
        (project ++ "/" ++ dotToSlash m ++ "/__init__.py")).isSome
    · rw [if_pos h2] at h
      simp only [Option.some.injEq] at h
      rw [← h]
      exact lookupA_isSome_mem _ _ h2
    · rw [if_neg h2] at h
      cases h

theorem mem_edgeTargets_iff (fs : FS) (project p t : String) :
    t ∈ edgeTargets fs project p ↔
      ∃ mn ∈ parse_imports_with_names fs p, mn.1 ∉ skipList ∧
        resolve_import_to_file fs mn.1 project = some t := by
  unfold edgeTargets
  rw [List.mem_filterMap]
  constructor
  · rintro ⟨mn, hm, hf⟩
    by_cases hs : mn.1 ∈ skipList
    · rw [if_pos (by simpa using hs)] at hf
      cases hf
    · rw [if_neg (by simpa using hs)] at hf
      exact ⟨mn, hm, hs, hf⟩
  · rintro ⟨mn, hm, hs, hf⟩
    refine ⟨mn, hm, ?_⟩
    rw [if_neg (by simpa using hs)]
    exact hf

theorem enqueueImports_paths (fs : FS) (project : String)
    (processed : List String) :
    ∀ (imports queue : List (String × List String)) (x : String),
    x ∈ (enqueueImports fs project processed queue imports).map Prod.fst →
    x ∈ queue.map Prod.fst ∨ x ∈ keysList fs := by
  intro imports
  induction imports with
  | nil =>
    intro queue x h
    exact Or.inl (by simpa [enqueueImports] using h)
  | cons mn rest ih =>
    intro queue x h
    rw [enqueueImports] at h
    by_cases h1 : mn.1 ∈ skipList
    · rw [if_pos (by simpa using h1)] at h
      exact ih queue x h
    · rw [if_neg (by simpa using h1)] at h
      rcases h2 : resolve_import_to_file fs mn.1 project with _ | fp <;>
        rw [h2] at h <;> dsimp only at h
      · exact ih queue x h
      · by_cases h3 : fp ∈ processed
        · rw [if_pos (by simpa using h3)] at h
          exact ih queue x h
        · rw [if_neg (by simpa using h3)] at h
          rcases ih _ x h with hq | hfs
          · rw [List.map_append] at hq
            rcases List.mem_append.mp hq with hq | hq
            · exact Or.inl hq
            · simp only [List.map_cons, List.map_nil, List.mem_singleton] at hq
              right
              rw [hq]
              exact resolve_mem fs mn.1 project fp h2
          · exact Or.inr hfs

theorem enqueueImports_covers (fs : FS) (project : String)
    (processed : List String) :
    ∀ (imports queue : List (String × List String)) (t : String)
      (mn : String × List String),
    mn ∈ imports → mn.1 ∉ skipList →
    resolve_import_to_file fs mn.1 project = some t →
    t ∈ processed ∨
      t ∈ (enqueueImports fs project processed queue imports).map Prod.fst := by
  intro imports
  induction imports with
  | nil =>
    intro queue t mn hm
    simp at hm
  | cons mn0 rest ih =>
    intro queue t mn hm hskip hres
    rcases List.mem_cons.mp hm with rfl | hm
    · by_cases hp : t ∈ processed
      · exact Or.inl hp
      · right
        rw [enqueueImports, if_neg (by simpa using hskip), hres]
        dsimp only
        rw [if_neg (by simpa using hp)]
        rcases enqueueImports_extends fs project processed rest
          (queue ++ [(t, mn.2)]) with ⟨app, happ⟩
        rw [happ]
        simp
    · rw [enqueueImports]
      exact ih _ t mn hm hskip hres

theorem enqueueImports_length (fs : FS) (project : String)
    (processed : List String) :
    ∀ (imports queue : List (String × List String)),
    (enqueueImports fs project processed queue imports).length ≤
      queue.length + imports.length := by
  intro imports
  induction imports with
  | nil =>
    intro queue
    simp [enqueueImports]
  | cons mn rest ih =>
    intro queue
    rw [enqueueImports]
    by_cases h1 : mn.1 ∈ skipList
    · rw [if_pos (by simpa using h1)]
      have := ih queue
      simp only [List.length_cons]
      omega
    · rw [if_neg (by simpa using h1)]
      rcases h2 : resolve_import_to_file fs mn.1 project with _ | fp <;>
        dsimp only
      · have := ih queue
        simp only [List.length_cons]
        omega
      · by_cases h3 : fp ∈ processed
        · rw [if_pos (by simpa using h3)]
          have := ih queue
          simp only [List.length_cons]
          omega
        · rw [if_neg (by simpa using h3)]
          have := ih (queue ++ [(fp, mn.2)])
          simp only [List.length_append, List.length_cons,
            List.length_nil] at this ⊢
          omega

theorem sublist_sum_le (l1 l2 : List Nat) (h : l1.Sublist l2) :
    l1.sum ≤ l2.sum := by
  induction h with
  | slnil => exact le_rfl
  | cons a h ih =>
    simp only [List.sum_cons]
    omega
  | cons₂ a h ih =>
    simp only [List.sum_cons]
    omega

theorem filter_sublist_of_imp {α : Type} (p q : α → Bool)
    (h : ∀ a, p a = true → q a = true) :
    ∀ (l : List α), (l.filter p).Sublist (l.filter q) := by
  intro l
  induction l with
  | nil => simp
  | cons a rest ih =>
    by_cases hp : p a = true
    · rw [List.filter_cons_of_pos hp, List.filter_cons_of_pos (h a hp)]
      exact ih.cons₂ a
    · rw [List.filter_cons_of_neg (by simpa using hp)]
      by_cases hq : q a = true
      · rw [List.filter_cons_of_pos hq]
        exact ih.cons a
      · rw [List.filter_cons_of_neg (by simpa using hq)]
        exact ih

theorem impMeasure_mono (fs : FS) (entry : String)
    (processed processed' : List String)
    (hs : ∀ x ∈ processed, x ∈ processed') :
    impMeasure fs entry processed' ≤ impMeasure fs entry processed := by
  unfold impMeasure
  refine sublist_sum_le _ _ (List.Sublist.map _ (filter_sublist_of_imp _ _ ?_ _))
  intro a ha
  simp only [Bool.not_eq_true'] at ha ⊢
  by_cases hm : a ∈ processed
  · exfalso
    have h2 : processed'.contains a = true := by simpa using hs a hm
    rw [h2] at ha
    cases ha
  · simpa using hm

theorem sum_map_filter_ne (f : String → Nat) :
    ∀ (l : List String) (c : String), c ∈ l →
    ((l.filter (fun x => !(x == c))).map f).sum + f c ≤ (l.map f).sum := by
  intro l
  induction l with
  | nil =>
    intro c hc
    simp at hc
  | cons a rest ih =>
    intro c hc
    by_cases hac : (a == c) = true
    · have hval : a = c := by simpa using hac
      rw [List.filter_cons_of_neg (by simp [hac])]
      have hsub : (rest.filter (fun x => !(x == c))).Sublist rest := by
        first
        | exact List.filter_sublist _
        | exact List.filter_sublist
      have hs := sublist_sum_le _ _ (List.Sublist.map f hsub)
      simp only [List.map_cons, List.sum_cons]
      rw [hval]
      omega
    · rcases List.mem_cons.mp hc with rfl | hc2
      · simp at hac
      · rw [List.filter_cons_of_pos (by simp [hac])]
        have := ih c hc2
        simp only [List.map_cons, List.sum_cons]
        omega

theorem contains_append_filter (univ processed : List String) (cur : String) :
    univ.filter (fun p => !(processed ++ [cur]).contains p) =
      (univ.filter (fun p => !processed.contains p)).filter
        (fun p => !(p == cur)) := by
  rw [List.filter_filter]
  refine List.filter_congr ?_
  intro x _
  rw [Bool.eq_iff_iff]
  simp only [Bool.not_eq_true', Bool.and_eq_true]
  constructor
  · intro hx
    have hx2 : x ∉ processed ++ [cur] := by simpa using hx
    simp only [List.mem_append, List.mem_singleton] at hx2
    push_neg at hx2
    constructor
    · simpa using hx2.2
    · simpa using hx2.1
  · rintro ⟨ha, hb⟩
    have ha2 : x ∉ processed := by simpa using hb
    have hb2 : x ≠ cur := by simpa using ha
    have : x ∉ processed ++ [cur] := by
      simp only [List.mem_append, List.mem_singleton]
      push_neg
      exact ⟨ha2, hb2⟩
    simpa using this

theorem impMeasure_remove (fs : FS) (entry cur : String)
    (processed : List String) (hu : cur ∈ univList fs entry)
    (hp : cur ∉ processed) :
    impMeasure fs entry (processed ++ [cur]) + impLen fs cur ≤
      impMeasure fs entry processed := by
  unfold impMeasure
  rw [contains_append_filter]
  refine sum_map_filter_ne (impLen fs) _ cur ?_
  rw [List.mem_filter]
  refine ⟨hu, ?_⟩
  simpa using hp

theorem nodup_append_singleton {α : Type} (l : List α) (a : α)
    (h1 : l.Nodup) (h2 : a ∉ l) : (l ++ [a]).Nodup := by
  simp [List.nodup_append, h1, h2]

/-- Draining and closure: with adequate fuel, everything queued gets
processed, and the processed set of a finished run is closed under the
resolvable edges of its non-excluded members. -/
theorem extractLoop_master (fs : FS) (project : String) (excl : List String)
    (entry : String) :
    ∀ (fuel : Nat) (st res : EState),
    extractLoop fs project excl fuel st = .ok res →
    st.queue.length + impMeasure fs entry st.processed ≤ fuel →
    (∀ x ∈ st.queue.map Prod.fst, x ∈ univList fs entry) →
    (∀ p ∈ st.processed, isExcluded excl p = false →
      ∀ q ∈ edgeTargets fs project p,
        q ∈ st.processed ∨ q ∈ st.queue.map Prod.fst) →
    (∀ p ∈ st.processed, p ∈ res.processed) ∧
    (∀ x ∈ st.queue.map Prod.fst, x ∈ res.processed) ∧
    (∀ p ∈ res.processed, isExcluded excl p = false →
      ∀ q ∈ edgeTargets fs project p, q ∈ res.processed) := by
  intro fuel
  induction fuel with
  | zero =>
    intro st res h hm hqp hinv
    have hq : st.queue = [] := by
      cases hqe : st.queue with
      | nil => rfl
      | cons a t =>
        rw [hqe] at hm
        simp only [List.length_cons] at hm
        omega
    simp only [extractLoop, Except.ok.injEq] at h
    rw [← h]
    refine ⟨fun p hp => hp, ?_, ?_⟩
    · intro x hx
      rw [hq] at hx
      simp at hx
    · intro p hp hex q hqt
      rcases hinv p hp hex q hqt with h2 | h2
      · exact h2
      · rw [hq] at h2
        simp at h2
  | succ fuel ih =>
    intro st res h hm hqp hinv
    rcases st with ⟨queue, processed, extracted, order⟩
    dsimp only at hm hqp hinv
    cases queue with
    | nil =>
      rw [extractLoop_nil _ _ _ _ _ rfl] at h
      simp only [Except.ok.injEq] at h
      rw [← h]
      refine ⟨fun p hp => hp, ?_, ?_⟩
      · intro x hx
        simp at hx
      · intro p hp hex q hqt
        rcases hinv p hp hex q hqt with h2 | h2
        · exact h2
        · simp at h2
    | cons e rest =>
      rcases e with ⟨cur, names⟩
      simp only [List.length_cons] at hm
      by_cases h1 : cur ∈ processed
      · rw [extractLoop_skip _ _ _ _ _ _ _ _ _ _ h1] at h
        rcases ih ⟨rest, processed, extracted, order⟩ res h
          (by dsimp only; omega)
          (by
            intro x hx
            exact hqp x (by simp [hx]))
          (by
            intro p hp hex q hqt
            rcases hinv p hp hex q hqt with h2 | h2
            · exact Or.inl h2
            · rcases (by simpa using h2 : q = cur ∨ q ∈ rest.map Prod.fst)
                with h3 | h3
              · exact Or.inl (h3 ▸ h1)
              · exact Or.inr h3) with ⟨c1, c2, c3⟩
        refine ⟨c1, ?_, c3⟩
        intro x hx
        rcases (by simpa using hx : x = cur ∨ x ∈ rest.map Prod.fst) with h3 | h3
        · exact c1 x (h3 ▸ h1)
        · exact c2 x h3
      · by_cases h2 : isExcluded excl cur = true
        · rcases hr : relTo cur project with _ | r
          · rw [extractLoop_excl_err _ _ _ _ _ _ _ _ _ _ h1 h2 hr] at h
            cases h
          · rw [extractLoop_excl _ _ _ _ _ _ _ _ _ _ r h1 h2 hr] at h
            have hmono := impMeasure_mono fs entry processed (processed ++ [cur])
              (fun x hx => List.mem_append.mpr (Or.inl hx))
            rcases ih ⟨rest, processed ++ [cur], extracted, order ++ [cur]⟩ res h
              (by dsimp only; omega)
              (by
                intro x hx
                exact hqp x (by simp [hx]))
              (by
                intro p hp hex q hqt
                dsimp only at hp
                rcases List.mem_append.mp hp with hp2 | hp2
                · rcases hinv p hp2 hex q hqt with h3 | h3
                  · exact Or.inl (List.mem_append.mpr (Or.inl h3))
                  · rcases (by simpa using h3 : q = cur ∨ q ∈ rest.map Prod.fst)
                      with h4 | h4
                    · exact Or.inl (List.mem_append.mpr (Or.inr (by simp [h4])))
                    · exact Or.inr h4
                · have hpc : p = cur := by simpa using hp2
                  rw [hpc] at hex
                  simp [hex] at h2) with ⟨c1, c2, c3⟩
            refine ⟨?_, ?_, c3⟩
            · intro p hp
              exact c1 p (List.mem_append.mpr (Or.inl hp))
            · intro x hx
              rcases (by simpa using hx : x = cur ∨ x ∈ rest.map Prod.fst)
                with h3 | h3
              · exact c1 x (by rw [h3]; exact List.mem_append.mpr (Or.inr (by simp)))
              · exact c2 x h3
        · replace h2 : isExcluded excl cur = false := by simpa using h2
          rcases hr : relTo cur project with _ | r
          · rw [extractLoop_proc_err_rel _ _ _ _ _ _ _ _ _ _ h1 h2 hr] at h
            cases h
          · rcases hpf : processFile fs cur names with u | code
            · cases u
              rw [extractLoop_proc_err_pf _ _ _ _ _ _ _ _ _ _ r h1 h2 hr hpf] at h
              cases h
            · rw [extractLoop_proc _ _ _ _ _ _ _ _ _ _ r code h1 h2 hr hpf] at h
              have hcuru : cur ∈ univList fs entry := hqp cur (by simp)
              have hrem := impMeasure_remove fs entry cur processed hcuru h1
              have hlen := enqueueImports_length fs project (processed ++ [cur])
                (parse_imports_with_names fs cur) rest
              rcases enqueueImports_extends fs project (processed ++ [cur])
                (parse_imports_with_names fs cur) rest with ⟨app, happ⟩
              rcases ih ⟨enqueueImports fs project (processed ++ [cur]) rest
                    (parse_imports_with_names fs cur), processed ++ [cur],
                    setKey extracted cur code, order ++ [cur]⟩ res h
                (by
                  dsimp only
                  have himp : impLen fs cur =
                      (parse_imports_with_names fs cur).length := rfl
                  omega)
                (by
                  intro x hx
                  dsimp only at hx
                  rcases enqueueImports_paths fs project (processed ++ [cur])
                    (parse_imports_with_names fs cur) rest x hx with h3 | h3
                  · exact hqp x (by simp [h3])
                  · exact List.mem_cons_of_mem entry h3)
                (by
                  intro p hp hex q hqt
                  dsimp only at hp ⊢
                  rcases List.mem_append.mp hp with hp2 | hp2
                  · rcases hinv p hp2 hex q hqt with h3 | h3
                    · exact Or.inl (List.mem_append.mpr (Or.inl h3))
                    · rcases (by simpa using h3 : q = cur ∨ q ∈ rest.map Prod.fst)
                        with h4 | h4
                      · exact Or.inl (List.mem_append.mpr (Or.inr (by simp [h4])))
                      · right
                        rw [happ, List.map_append]
                        exact List.mem_append.mpr (Or.inl h4)
                  · have hpc : p = cur := by simpa using hp2
                    subst hpc
                    rcases (mem_edgeTargets_iff fs project p q).mp hqt
                      with ⟨mn, hmn, hskip, hres⟩
                    rcases enqueueImports_covers fs project (processed ++ [p])
                      (parse_imports_with_names fs p) rest q mn hmn hskip hres
                      with h3 | h3
                    · exact Or.inl h3
                    · exact Or.inr h3) with ⟨c1, c2, c3⟩
              refine ⟨?_, ?_, c3⟩
              · intro p hp
                exact c1 p (List.mem_append.mpr (Or.inl hp))
              · intro x hx
                rcases (by simpa using hx : x = cur ∨ x ∈ rest.map Prod.fst)
                  with h3 | h3
                · exact c1 x (by rw [h3]; exact List.mem_append.mpr (Or.inr (by simp)))
                · refine c2 x ?_
                  dsimp only
                  rw [happ, List.map_append]
                  exact List.mem_append.mpr (Or.inl h3)

/-- The structural bookkeeping of the extraction loop: keys are recorded
for processed files only, processing order is duplicate-free, and the key
sequence is exactly the first-dequeue order restricted to non-excluded
files. -/
theorem extractLoop_struct (fs : FS) (project : String) (excl : List String) :
    ∀ (fuel : Nat) (st res : EState),
    extractLoop fs project excl fuel st = .ok res →
    (∀ k ∈ keysList st.extracted, k ∈ st.processed) →
    (∀ p ∈ st.processed, p ∈ st.order) →
    (∀ p ∈ st.order, p ∈ st.processed) →
    st.order.Nodup →
    keysList st.extracted = st.order.filter (fun p => !isExcluded excl p) →
    (∀ k ∈ keysList res.extracted, k ∈ res.processed) ∧
    (∀ p ∈ res.processed, p ∈ res.order) ∧
    res.order.Nodup ∧
    keysList res.extracted = res.order.filter (fun p => !isExcluded excl p) := by
  intro fuel
  induction fuel with
  | zero =>
    intro st res h hk hpo hop hnd hfil
    simp only [extractLoop, Except.ok.injEq] at h
    rw [← h]
    exact ⟨hk, hpo, hnd, hfil⟩
  | succ fuel ih =>
    intro st res h hk hpo hop hnd hfil
    rcases st with ⟨queue, processed, extracted, order⟩
    dsimp only at hk hpo hop hnd hfil
    cases queue with
    | nil =>
      rw [extractLoop_nil _ _ _ _ _ rfl] at h
      simp only [Except.ok.injEq] at h
      rw [← h]
      exact ⟨hk, hpo, hnd, hfil⟩
    | cons e rest =>
      rcases e with ⟨cur, names⟩
      by_cases h1 : cur ∈ processed
      · rw [extractLoop_skip _ _ _ _ _ _ _ _ _ _ h1] at h
        exact ih ⟨rest, processed, extracted, order⟩ res h hk hpo hop hnd hfil
      · have hcno : cur ∉ order := fun hco => h1 (hop cur hco)
        by_cases h2 : isExcluded excl cur = true
        · rcases hr : relTo cur project with _ | r
          · rw [extractLoop_excl_err _ _ _ _ _ _ _ _ _ _ h1 h2 hr] at h
            cases h
          · rw [extractLoop_excl _ _ _ _ _ _ _ _ _ _ r h1 h2 hr] at h
            refine ih _ res h ?_ ?_ ?_ ?_ ?_
            · intro k hkk
              exact List.mem_append.mpr (Or.inl (hk k hkk))
            · intro p hp
              rcases List.mem_append.mp hp with hp2 | hp2
              · exact List.mem_append.mpr (Or.inl (hpo p hp2))
              · exact List.mem_append.mpr (Or.inr hp2)
            · intro p hp
              rcases List.mem_append.mp hp with hp2 | hp2
              · exact List.mem_append.mpr (Or.inl (hop p hp2))
              · exact List.mem_append.mpr (Or.inr hp2)
            · exact nodup_append_singleton order cur hnd hcno
            · dsimp only
              rw [List.filter_append]
              have hfc : [cur].filter (fun p => !isExcluded excl p) = [] := by
                simp [h2]
              rw [hfc, List.append_nil]
              exact hfil
        · replace h2 : isExcluded excl cur = false := by simpa using h2
          rcases hr : relTo cur project with _ | r
          · rw [extractLoop_proc_err_rel _ _ _ _ _ _ _ _ _ _ h1 h2 hr] at h
            cases h
          · rcases hpf : processFile fs cur names with u | code
            · cases u
              rw [extractLoop_proc_err_pf _ _ _ _ _ _ _ _ _ _ r h1 h2 hr hpf] at h
              cases h
            · rw [extractLoop_proc _ _ _ _ _ _ _ _ _ _ r code h1 h2 hr hpf] at h
              have hfresh : cur ∉ keysList extracted := fun hkk => h1 (hk cur hkk)
              refine ih _ res h ?_ ?_ ?_ ?_ ?_
              · intro k hkk
                dsimp only at hkk
                rcases keysList_setKey_subset extracted cur k code hkk with h3 | h3
                · exact List.mem_append.mpr (Or.inl (hk k h3))
                · exact List.mem_append.mpr (Or.inr (by simp [h3]))
              · intro p hp
                rcases List.mem_append.mp hp with hp2 | hp2
                · exact List.mem_append.mpr (Or.inl (hpo p hp2))
                · exact List.mem_append.mpr (Or.inr hp2)
              · intro p hp
                rcases List.mem_append.mp hp with hp2 | hp2
                · exact List.mem_append.mpr (Or.inl (hop p hp2))
                · exact List.mem_append.mpr (Or.inr hp2)
              · exact nodup_append_singleton order cur hnd hcno
              · dsimp only
                rw [keysList_setKey_fresh extracted cur code hfresh,
                  List.filter_append, hfil]
                have hfc : [cur].filter (fun p => !isExcluded excl p) = [cur] := by
                  simp [h2]
                rw [hfc]

/-- C4: in a completed run, the artifact's code sections are exactly the
keys of the extracted mapping; those keys are duplicate-free (a file
re-encountered after processing is discarded, never re-processed); their
order is exactly the FIFO first-dequeue order restricted to non-excluded
files; and every file reachable from the entry through resolvable import
edges of non-excluded files that is itself non-excluded appears among
them. -/
theorem each_file_exactly_once (fs : FS) (project entry outF : String)
    (excl : List String) (art : Artifact) (st : EState)
    (hrun : extract_used_code fs project entry outF excl = .ok art)
    (hst : extractPhase fs project entry excl = .ok st) :
    art.sections.map Section.path = keysList st.extracted ∧
    (keysList st.extracted).Nodup ∧
    keysList st.extracted = st.order.filter (fun p => !isExcluded excl p) ∧
    (∀ q, Reachable fs project excl entry q → isExcluded excl q = false →
      q ∈ keysList st.extracted) := by
  have hloop : extractLoop fs project excl (topFuel fs entry)
      ⟨[(entry, ["*"])], [], [], []⟩ = .ok st := hst
  rcases extractLoop_struct fs project excl (topFuel fs entry) _ st hloop
    (by simp [keysList]) (by simp) (by simp) (by simp) (by simp [keysList])
    with ⟨hks, hpo, hnd, hfil⟩
  refine ⟨?_, ?_, hfil, ?_⟩
  · rcases extract_used_code_ok_inv fs project entry outF excl art hrun
      with ⟨st2, sections, tree, hp, _, hm, hsec⟩
    rw [hp] at hst
    simp only [Except.ok.injEq] at hst
    subst hst
    rw [hsec]
    exact buildSections_paths project st2.extracted sections hm
  · rw [hfil]
    exact hnd.filter _
  · rcases extractLoop_master fs project excl entry (topFuel fs entry) _ st hloop
      (by
        dsimp only
        unfold topFuel
        simp only [List.length_cons, List.length_nil]
        omega)
      (by
        intro x hx
        dsimp only at hx
        simp only [List.map_cons, List.map_nil, List.mem_singleton] at hx
        rw [hx]
        exact List.mem_cons_self entry _)
      (by
        intro p hp
        simp at hp) with ⟨_, hqp, hclosed⟩
    have hreach : ∀ q, Reachable fs project excl entry q →
        q ∈ st.processed := by
      intro q hq
      induction hq with
      | entry => exact hqp entry (by simp)
      | step p q2 _ hex hedge ihp => exact hclosed p ihp hex q2 hedge
    intro q hq hex
    rw [hfil]
    exact List.mem_filter.mpr ⟨hpo q (hreach q hq), by simp [hex]⟩

/-- Entry file of the C4 witness project: `import n4`. -/
def fileC4m : PyFile :=
  { lines := ["import n4"],
    tree := some { body := [.imp ["n4"] 1 (some 1)],
                   walk := [.imp ["n4"] 1 (some 1)] } }

/-- The two-file project of the C4 witness. -/
def fsC4 : FS := [("p/m4.py", fileC4m), ("p/n4.py", pyTiny)]

/-- The extraction-phase state the C4 witness run reaches. -/
def stC4 : EState :=
  ⟨[], ["p/m4.py", "p/n4.py"],
   [("p/m4.py", ["import n4"]), ("p/n4.py", ["Z = 1"])],
   ["p/m4.py", "p/n4.py"]⟩

/-- The artifact the C4 witness run writes. -/
def artC4 : Artifact :=
  { totalFiles := 2, projectRoot := "p",
    treeLines := ["├── 📄 m4.py", "└── 📄 n4.py"],
    sections :=
      [⟨"p/m4.py", "m4.py", "(root)", 1, ["import n4"]⟩,
       ⟨"p/n4.py", "n4.py", "(root)", 1, ["Z = 1"]⟩] }

/-- Witness for C4 at a concrete completed run. -/
theorem each_file_exactly_once_witness :
    artC4.sections.map Section.path = keysList stC4.extracted ∧
    (keysList stC4.extracted).Nodup ∧
    keysList stC4.extracted = stC4.order.filter (fun p => !isExcluded [] p) ∧
    (∀ q, Reachable fsC4 "p" [] "p/m4.py" q → isExcluded [] q = false →
      q ∈ keysList stC4.extracted) :=
  each_file_exactly_once fsC4 "p" "p/m4.py" "o" [] artC4 stC4 rfl rfl

end ExtractCode
